import Mathlib

/-!
# geecache: the LRU store, the consistent-hash ring and the cache group

A shallow embedding of `lru/lru.go`, `consistenthash/consistenthash.go`,
`cache.go`, `geecache.go` and the peer selection of `http.go`, followed by
the properties proved about them.

Conventions of the embedding

* A Go `string` is a Lean `String`; `len(s)` is `String.utf8ByteSize`.
* `int64` / `int` quantities are `Int`, a Go length is a `Nat`; byte totals
  and hash points stay far below `2^63`, so the arithmetic is exact.
* A Go `map` is an association list holding each key at most once
  (`GoMap`); `m[k]`, `m[k] = v` and `delete(m, k)` are `GoMap.get`,
  `GoMap.set` and `GoMap.delete`.
* A `*list.Element` is the identity (`id`) of a list cell; the list itself
  is the sequence of its cells, front first.
* A loop that the source does not bound is run with an explicit amount of
  fuel and yields `none` when the fuel is used up before the loop exits.
* Mutexes and log output play no part in a sequential run and are left out.
* The collaborators of a group (getter, peer picker, peers) are functions of
  their arguments; a run of a method of `Group` lists the calls it made to
  them and to the shard as events.
-/

/-! ## Go maps -/

/-- Go `map[α]β`: the list of its key/value pairs. -/
abbrev GoMap (α β : Type) := List (α × β)

namespace GoMap

variable {α β : Type} [DecidableEq α]

/-- The lookup `m[k]` with its `ok` flag: `none` when `k` is absent. -/
def get : GoMap α β → α → Option β
  | [], _ => none
  | (k, v) :: m, a => if k = a then some v else get m a

/-- The statement `delete(m, k)`. -/
def delete (m : GoMap α β) (a : α) : GoMap α β :=
  m.filter (fun p => decide (p.1 ≠ a))

/-- The assignment `m[k] = v`: an existing binding of `k` is replaced. -/
def set (m : GoMap α β) (a : α) (b : β) : GoMap α β :=
  (a, b) :: delete m a

/-- The keys of the map; `len(m)` is the length of this list. -/
def keys (m : GoMap α β) : List α := m.map Prod.fst

/-- A run of assignments `m[p] = s`, in the order of the list. -/
def setAll (m : GoMap α β) (ws : List (α × β)) : GoMap α β :=
  ws.foldl (fun m w => set m w.1 w.2) m

end GoMap

/-! ## package lru -/

namespace lru

/-- The interface `Value`: anything with a `Len() int` method. The result is
a Go `int`: an implementation may return any integer, a negative one too. -/
class Value (V : Type) where
  Len : V → Int

/-- The struct `entry`: what a list cell stores. -/
structure entry (V : Type) where
  key : String
  value : V

/-- A cell of `container/list`: its identity (what a `*list.Element`
points at) and the `*entry` it holds. -/
structure Element (V : Type) where
  id : Nat
  kv : entry V

/-- The struct `Cache`. `ll` is the recency list, front (most recently used)
first; `cache` maps a key to the identity of its cell; `next` is the identity
the next `PushFront` hands out (Go allocates a fresh cell). The callback
`OnEvicted` acts on a state `σ` of the caller; `none` is the nil callback. -/
structure Cache (V σ : Type) where
  ll : List (Element V)
  maxBytes : Int
  nbytes : Int
  cache : GoMap String Nat
  OnEvicted : Option (String → V → σ → σ)
  next : Nat

variable {V σ : Type}

/-- The cell a `*list.Element` denotes, looked up in the list by identity. -/
def deref (l : List (Element V)) (id : Nat) : Option (Element V) :=
  l.find? (fun e => decide (e.id = id))

/-- `list.Back`: the last cell, `none` for an empty list. -/
def Back (l : List (Element V)) : Option (Element V) :=
  l.getLast?

/-- `list.Remove(e)`: the list without the cell of identity `id`. -/
def Remove (l : List (Element V)) (id : Nat) : List (Element V) :=
  l.filter (fun e => decide (e.id ≠ id))

/-- `list.MoveToFront(e)`: no effect when the cell is not in the list. -/
def MoveToFront (l : List (Element V)) (id : Nat) : List (Element V) :=
  match deref l id with
  | some e => e :: Remove l id
  | none => l

/-- `list.PushFront(v)` for a cell of identity `id`. -/
def PushFront (l : List (Element V)) (id : Nat) (kv : entry V) : List (Element V) :=
  { id := id, kv := kv } :: l

/-- The assignment `kv.value = value` through the cell of identity `id`. -/
def setValue (l : List (Element V)) (id : Nat) (value : V) : List (Element V) :=
  l.map (fun e => if e.id = id then { e with kv := { e.kv with value := value } } else e)

/-- Size of an entry as `Add` and `RemoveOldest` account it:
`int64(len(kv.key)) + int64(kv.value.Len())`. -/
def entry.size [Value V] (kv : entry V) : Int :=
  (kv.key.utf8ByteSize : Int) + (Value.Len kv.value : Int)

/-- The constructor `New`. -/
def New (maxBytes : Int) (OnEvicted : Option (String → V → σ → σ)) : Cache V σ :=
  { ll := [], maxBytes := maxBytes, nbytes := 0, cache := [],
    OnEvicted := OnEvicted, next := 0 }

/-- The method `Cache.Get`: on a hit the cell is moved to the front and its
value returned with `ok = true` (`some`); on a miss nothing changes. The
index entry of a store built by `New`, `Add`, `Get` and `RemoveOldest`
always denotes a cell of the list (`Inv_calls`, `Inv.get_some`), so the inner
`none` branch is never taken there. -/
def Get (c : Cache V σ) (key : String) : Cache V σ × Option V :=
  match GoMap.get c.cache key with
  | some element =>
    match deref c.ll element with
    | some e => ({ c with ll := MoveToFront c.ll element }, some e.kv.value)
    | none => (c, none)
  | none => (c, none)

/-- The method `Cache.RemoveOldest`, with the state `w` the callback acts on. -/
def RemoveOldest [Value V] (c : Cache V σ) (w : σ) : Cache V σ × σ :=
  match Back c.ll with
  | some element =>
    let kv := element.kv
    let w1 := match c.OnEvicted with
      | some f => f kv.key kv.value w
      | none => w
    ({ c with
        cache := GoMap.delete c.cache kv.key
        nbytes := c.nbytes - ((kv.key.utf8ByteSize : Int) + (Value.Len kv.value : Int))
        ll := Remove c.ll element.id }, w1)
  | none => (c, w)

/-- The first half of `Cache.Add`: update of an existing key or insertion of
a new one, before the eviction loop. -/
def Add.insert [Value V] (c : Cache V σ) (key : String) (value : V) : Cache V σ :=
  match GoMap.get c.cache key with
  | some element =>
    match deref c.ll element with
    | some e =>
      { c with
          ll := setValue (MoveToFront c.ll element) element value
          nbytes := c.nbytes + ((Value.Len value : Int) - (Value.Len e.kv.value : Int)) }
    | none => c
  | none =>
    let kv : entry V := { key := key, value := value }
    { c with
        ll := PushFront c.ll c.next kv
        nbytes := c.nbytes + ((key.utf8ByteSize : Int) + (Value.Len kv.value : Int))
        cache := GoMap.set c.cache key c.next
        next := c.next + 1 }

/-- The loop `for c.maxBytes != 0 && c.nbytes > c.maxBytes { c.RemoveOldest() }`
run for at most `fuel` iterations: `none` when the condition still holds
after `fuel` calls of `RemoveOldest`. -/
def Add.loop [Value V] : Nat → Cache V σ → σ → Option (Cache V σ × σ)
  | 0, c, w =>
    if c.maxBytes ≠ 0 ∧ c.nbytes > c.maxBytes then none else some (c, w)
  | fuel + 1, c, w =>
    if c.maxBytes ≠ 0 ∧ c.nbytes > c.maxBytes then
      Add.loop fuel (RemoveOldest c w).1 (RemoveOldest c w).2
    else some (c, w)

/-- The method `Cache.Add`. -/
def Add [Value V] (fuel : Nat) (c : Cache V σ) (w : σ) (key : String) (value : V) :
    Option (Cache V σ × σ) :=
  Add.loop fuel (Add.insert c key value) w

/-- A call of one of the three mutating methods of `Cache`. -/
inductive Call (V : Type) where
  | Add (key : String) (value : V)
  | Get (key : String)
  | RemoveOldest

/-- One call on a store; every `Add` of the call gets `fuel` loop iterations. -/
def call [Value V] (fuel : Nat) (s : Cache V σ × σ) : Call V → Option (Cache V σ × σ)
  | .Add key value => Add fuel s.1 s.2 key value
  | .Get key => some ((Get s.1 key).1, s.2)
  | .RemoveOldest => some (RemoveOldest s.1 s.2)

/-- A finite sequence of calls, left to right; `none` as soon as one call
does not complete within its fuel. -/
def calls [Value V] (fuel : Nat) : Cache V σ × σ → List (Call V) → Option (Cache V σ × σ)
  | s, [] => some s
  | s, op :: ops => (call fuel s op).bind (fun s1 => calls fuel s1 ops)

/-- The test type `String` of `lru_test.go`: `Len` is the length in bytes. -/
structure TString where
  s : String
  deriving DecidableEq

instance : Value TString where
  Len d := (d.s.utf8ByteSize : Int)

/-- Sum of the sizes of all entries of the list. -/
def total [Value V] (l : List (Element V)) : Int :=
  (l.map (fun e => e.kv.size)).sum

/-- The keys of the recency list, front first. -/
def llKeys (l : List (Element V)) : List String :=
  l.map (fun e => e.kv.key)

/-- The identities of the cells of a list, front first. -/
def ids (l : List (Element V)) : List Nat := l.map (fun e => e.id)

/-- The structural invariant of `Cache`: cells and keys of the recency list
are pairwise distinct, the index holds each key once, an index entry
`(k, id)` exists exactly when the list has the cell `id` and that cell
carries `k`, `nbytes` is the sum of the entry sizes, and every identity in
use is below the next one handed out. -/
structure Inv [Value V] (c : Cache V σ) : Prop where
  ids_nodup : (ids c.ll).Nodup
  keys_nodup : (llKeys c.ll).Nodup
  index_nodup : (GoMap.keys c.cache).Nodup
  index_iff : ∀ k id, (k, id) ∈ c.cache ↔ ∃ e ∈ c.ll, e.id = id ∧ e.kv.key = k
  bytes : c.nbytes = total c.ll
  fresh : ∀ e ∈ c.ll, e.id < c.next

/-- The effect of the callback field on the caller's state: nothing for nil. -/
def notify (cb : Option (String → V → σ → σ)) (w : σ) (e : Element V) : σ :=
  match cb with
  | some f => f e.kv.key e.kv.value w
  | none => w

/-- The list without the cell that carries `key`, order kept. -/
def without (l : List (Element V)) (key : String) : List (Element V) :=
  l.filter (fun e => decide (e.kv.key ≠ key))

/-- The loop condition `c.maxBytes != 0 && c.nbytes > c.maxBytes`. -/
def over (c : Cache V σ) : Prop := c.maxBytes ≠ 0 ∧ c.nbytes > c.maxBytes

instance (c : Cache V σ) : Decidable (over c) := by
  unfold over
  infer_instance

/-- A sequence of `Add` calls, one per key/value pair, left to right. -/
def adds (kvs : List (String × V)) : List (Call V) :=
  kvs.map (fun p => Call.Add p.1 p.2)

/-- The value given by the last `Add` for `k` in a sequence of `Add` calls;
`none` when no call of the sequence has the key `k`. -/
def lastAdded (kvs : List (String × V)) (k : String) : Option V :=
  (kvs.reverse.find? (fun p => decide (p.1 = k))).map Prod.snd

/-- The callback of `TestOnEvicted`: it appends the key to the slice `keys`. -/
def testCallback : String → TString → List String → List String :=
  fun key _ keys => keys ++ [key]

/-- The four `Add` calls of `TestOnEvicted`. -/
def testAdds : List (String × TString) :=
  [("key1", ⟨"123456"⟩), ("k2", ⟨"k2"⟩), ("k3", ⟨"k3"⟩), ("k4", ⟨"k4"⟩)]

/-- The store and the slice `keys` at the end of `TestOnEvicted`. -/
def testFinal : Cache TString (List String) × List String :=
  (⟨[⟨3, ⟨"k4", ⟨"k4"⟩⟩⟩, ⟨2, ⟨"k3", ⟨"k3"⟩⟩⟩], 10, 8, [("k4", 3), ("k3", 2)],
    some testCallback, 4⟩, ["key1", "k2"])

/-- The store and the slice `keys` of `TestOnEvicted` before its last `Add`. -/
def testThird : Cache TString (List String) × List String :=
  (⟨[⟨2, ⟨"k3", ⟨"k3"⟩⟩⟩, ⟨1, ⟨"k2", ⟨"k2"⟩⟩⟩], 10, 8, [("k3", 2), ("k2", 1)],
    some testCallback, 3⟩, ["key1"])

/-- A value whose `Len()` is the number it carries, whatever its sign. -/
structure Sized where
  len : Int
  deriving DecidableEq

instance : Value Sized where
  Len v := v.len

/-- The call hands no value with a negative `Len()` to the store: a condition
on `Add` only. -/
def Call.lenNonneg [Value V] : Call V → Prop
  | .Add _ value => 0 ≤ Value.Len value
  | _ => True

/-- Every entry of the store has a size that is not negative. -/
def SizesNonneg [Value V] (c : Cache V σ) : Prop :=
  ∀ e ∈ c.ll, 0 ≤ e.kv.size

end lru

/-! ## package consistenthash -/

namespace consistenthash

/-- The type `Hash`, `func(data []byte) uint32`, applied to the bytes of a
string. A function into `Nat` stands for it; `Map.point` reduces its result
to the 32 bits a `uint32` has. -/
abbrev Hash := String → Nat

/-- One round of the bitwise CRC-32 update (reflected polynomial
`0xEDB88320`). -/
def crcBit (c : Nat) : Nat :=
  if c % 2 = 1 then (c / 2) ^^^ 0xEDB88320 else c / 2

/-- The CRC-32 update for one byte. -/
def crcByte (c : Nat) (b : UInt8) : Nat :=
  crcBit (crcBit (crcBit (crcBit (crcBit (crcBit (crcBit (crcBit (c ^^^ b.toNat))))))))

/-- The default hash `crc32.ChecksumIEEE` of the Go standard library. -/
def ChecksumIEEE : Hash :=
  fun s => ((s.data.flatMap String.utf8EncodeChar).foldl crcByte 0xFFFFFFFF) ^^^ 0xFFFFFFFF

/-- The struct `Map`: `keys` is the point list, `hashMap` maps a point to its
node. -/
structure Map where
  hash : Hash
  replicas : Int
  keys : List Int
  hashMap : GoMap Int String

/-- The constructor `New`; `none` is the nil hash function. -/
def New (replicas : Int) (fn : Option Hash) : Map :=
  { hash := match fn with
      | some f => f
      | none => ChecksumIEEE
    replicas := replicas
    keys := []
    hashMap := [] }

/-- The conversion `int(hash(data))` of a `uint32` hash value. -/
def point (hash : Hash) (data : String) : Int :=
  ((hash data % 4294967296 : Nat) : Int)

/-- The body of the inner loop of `Add` for node `str` and replica `i`. -/
def Add.replica (str : String) (m : Map) (i : Nat) : Map :=
  let hash := point m.hash (str ++ Nat.repr i)
  { m with
      keys := m.keys ++ [hash]
      hashMap := GoMap.set m.hashMap hash str }

/-- The inner loop `for i := 0; i < m.replicas; i++` of `Add`; it does not
run when `replicas` is zero or negative. -/
def Add.node (m : Map) (str : String) : Map :=
  (List.range m.replicas.toNat).foldl (Add.replica str) m

/-- The call `sort.Ints`: the ascending rearrangement of the slice. -/
def sortInts (l : List Int) : List Int :=
  l.insertionSort (fun a b => a ≤ b)

/-- The method `Map.Add`. -/
def Add (m : Map) (keys : List String) : Map :=
  let m1 := keys.foldl Add.node m
  { m1 with keys := sortInts m1.keys }

/-- The loop of `sort.Search` on the interval `[i, j)`; `fuel` bounds the
number of iterations and `j - i` is enough of it. -/
def Search.loop (f : Nat → Bool) : Nat → Nat → Nat → Nat
  | 0, i, _ => i
  | fuel + 1, i, j =>
    if i < j then
      let h := (i + j) / 2
      if !f h then Search.loop f fuel (h + 1) j else Search.loop f fuel i h
    else i

/-- The call `sort.Search(n, f)` of the Go standard library: binary search
for the smallest index in `[0, n)` at which `f` holds, `n` when there is none. -/
def Search (n : Nat) (f : Nat → Bool) : Nat :=
  Search.loop f n 0 n

/-- The lookup `m.hashMap[p]`: the empty string for a point without entry. -/
def nodeOf (m : Map) (p : Int) : String :=
  (GoMap.get m.hashMap p).getD ""

/-- The method `Map.Get`. `Search` reads `m.keys[i]` only at indices below
`len(m.keys)`. -/
def Get (m : Map) (key : String) : String :=
  if m.keys.length = 0 then ""
  else
    let hash := point m.hash key
    let idx := Search m.keys.length (fun i => decide (m.keys.getD i 0 ≥ hash))
    nodeOf m (m.keys.getD (idx % m.keys.length) 0)

/-- A ring after `New` and a sequence of `Add` calls, one list of node
identifiers per call. -/
def ring (replicas : Int) (fn : Option Hash) (adds : List (List String)) : Map :=
  adds.foldl Add (New replicas fn)

/-- The smallest point of a list, `none` for the empty list. -/
def leastPoint : List Int → Option Int
  | [] => none
  | p :: ps =>
    match leastPoint ps with
    | none => some p
    | some q => some (min p q)

/-- The reference definition of the lookup, in the words of the
specification: no node (`""`) on a ring without points; otherwise the node
mapped to the smallest point that is at least `hash(key)`, and, when there
is no such point, the node mapped to the smallest point of the ring. -/
def Get.reference (m : Map) (key : String) : String :=
  match leastPoint m.keys with
  | none => ""
  | some first =>
    match leastPoint (m.keys.filter (fun p => decide (p ≥ point m.hash key))) with
    | some p => nodeOf m p
    | none => nodeOf m first

/-- The keys of `K` whose node after `Add(ns...)` differs from their node
before. -/
def remapped (m : Map) (ns : List String) (K : List String) : List String :=
  K.filter (fun k => decide (Get (Add m ns) k ≠ Get m k))

/-- A hash function that places `a0` at 100, `b0` at 50 and every other
string at 10. -/
def smallHash : Hash :=
  fun s => if s = "a0" then 100 else if s = "b0" then 50 else 10

/-- A hash function under which the nodes `a` and `b` share a point: `a0`
and `b0` are placed at 10, `a1` at 20, `b1` at 30, the key `k` at 5 and
every other string at 15. -/
def sharedHash : Hash :=
  fun s =>
    if s = "a0" then 10 else if s = "b0" then 10 else if s = "a1" then 20
    else if s = "b1" then 30 else if s = "k" then 5 else 15

/-- The nodes present on the ring: those that own a point, that is the
values of `m.hashMap`. -/
def owners (m : Map) : List String :=
  m.hashMap.map Prod.snd

/-- The assignments `m.hashMap[hash] = str` that `Add(keys...)` performs, in
order: for each node, one per replica index below `replicas`. -/
def writes (hash : Hash) (replicas : Int) (keys : List String) : List (Int × String) :=
  keys.flatMap (fun str =>
    (List.range replicas.toNat).map (fun i => (point hash (str ++ Nat.repr i), str)))

/-- The point the lookup of a key with hash value `h` selects in a point
list: the smallest point that is at least `h`, or the smallest point of all
when every point is below `h`. -/
def Selects (l : List Int) (h p : Int) : Prop :=
  p ∈ l ∧ ((h ≤ p ∧ ∀ q ∈ l, h ≤ q → p ≤ q) ∨ ((∀ q ∈ l, q < h) ∧ ∀ q ∈ l, p ≤ q))

/-- The invariant of the ring: the point list is ascending and every point
has an entry in the point-to-node map. -/
def RingInv (m : Map) : Prop :=
  m.keys.Sorted (fun a b => a ≤ b) ∧ ∀ p ∈ m.keys, ∃ s, GoMap.get m.hashMap p = some s

end consistenthash

/-! ## package geecache -/

namespace geecache

/-- Modelled from the spec: the type `ByteView`, whose file is not among the
sources: "immutable sequence of bytes plus its length". -/
structure ByteView where
  b : List UInt8
  deriving DecidableEq

/-- Modelled from the spec: `ByteView.Len`, the length of the byte sequence;
it makes `ByteView` a `lru.Value`. -/
instance : lru.Value ByteView where
  Len v := (v.b.length : Int)

/-- Modelled from the spec: `cloneBytes`, the defensive copy of a byte slice;
a copy has the same bytes. -/
def cloneBytes (b : List UInt8) : List UInt8 := b

/-- The struct `cache`: `lru` is `none` until the first `add` (the mutex
plays no part in a sequential run). -/
structure cache where
  lru : Option (lru.Cache ByteView Unit)
  cacheBytes : Int

/-- The method `cache.add`; `none` when the eviction loop of `lru.Add` does
not exit within `fuel` iterations. -/
def cache.add (fuel : Nat) (c : cache) (key : String) (value : ByteView) : Option cache :=
  let l := match c.lru with
    | none => lru.New c.cacheBytes none
    | some l => l
  (lru.Add fuel l () key value).map (fun r => { c with lru := some r.1 })

/-- The method `cache.get`. -/
def cache.get (c : cache) (key : String) : cache × Option ByteView :=
  match c.lru with
  | none => (c, none)
  | some l =>
    match (lru.Get l key).2 with
    | some v => ({ c with lru := some (lru.Get l key).1 }, some v)
    | none => ({ c with lru := some (lru.Get l key).1 }, none)

/-- What a `Getter` or a `PeerGetter` returns: `([]byte, error)`; `none` is
the nil error. -/
abbrev Fetched := List UInt8 × Option String

/-- A value of the interface `Getter`: either a `GetterFunc` or a value of
some other type that implements `Get`. -/
inductive Getter where
  | GetterFunc (f : String → Fetched)
  | other (get : String → Fetched)

/-- A value of the interface `PeerGetter`: its method `Get(group, key)`. -/
abbrev PeerGetter := String → String → Fetched

/-- A value of the interface `PeerPicker`: its method `PickPeer(key)`, which
returns a peer (`none` for nil) and the flag `ok`. -/
abbrev PeerPicker := String → Option PeerGetter × Bool

/-- The calls a `Group.Get` makes to its collaborators, in order. -/
inductive Event where
  | cacheGet (key : String)
  | loaderDo (key : String)
  | pickPeer (key : String)
  | peerGet (group key : String)
  | getter (key : String)
  | cacheAdd (key : String)
  deriving DecidableEq

/-- The struct `Group`. The field `loader` has no state between calls of a
sequential run and is left out. -/
structure Group where
  name : String
  getter : Getter
  mainCache : cache
  peers : Option PeerPicker

/-- The result `(ByteView, error)` of `Get`, `load`, `getFromPeer` and
`getLocally`. -/
structure Result where
  value : ByteView
  err : Option String
  deriving DecidableEq

/-- How a call ends: it returns, it panics, or (in the embedding) its fuel is
used up before it returns. -/
inductive Outcome (α : Type) where
  | returns (a : α)
  | panics (msg : String)
  | outOfFuel

/-- What a method of `Group` returns together with the group afterwards and
the calls made to the collaborators. -/
abbrev Run := Outcome (Result × Group × List Event)

/-- The function `NewGroup`, without the registration in `groups`: it panics
on a nil getter. -/
def NewGroup (name : String) (cacheBytes : Int) (getter : Option Getter) : Outcome Group :=
  match getter with
  | none => .panics "nil Getter"
  | some g =>
    .returns { name := name, getter := g, mainCache := { lru := none, cacheBytes := cacheBytes },
               peers := none }

/-- The method `Group.populateCache`. -/
def Group.populateCache (fuel : Nat) (g : Group) (key : String) (value : ByteView) :
    Option Group :=
  (cache.add fuel g.mainCache key value).map (fun c => { g with mainCache := c })

/-- The method `Group.getLocally`. The type assertion `g.getter.(GetterFunc)`
panics when the getter is not a `GetterFunc`. -/
def Group.getLocally (fuel : Nat) (g : Group) (key : String) : Run :=
  match g.getter with
  | .other _ => .panics "interface conversion: geecache.Getter is not geecache.GetterFunc"
  | .GetterFunc f =>
    match f key with
    | (_, some err) => .returns ({ value := { b := [] }, err := some err }, g, [.getter key])
    | (bytes, none) =>
      let value : ByteView := { b := cloneBytes bytes }
      match Group.populateCache fuel g key value with
      | none => .outOfFuel
      | some g1 => .returns ({ value := value, err := none }, g1, [.getter key, .cacheAdd key])

/-- The method `Group.getFromPeer`; a call through a nil peer panics. -/
def Group.getFromPeer (g : Group) (peer : Option PeerGetter) (key : String) :
    Outcome Result :=
  match peer with
  | none => .panics "invalid memory address or nil pointer dereference"
  | some p =>
    match p g.name key with
    | (_, some err) => .returns { value := { b := [] }, err := some err }
    | (bytes, none) => .returns { value := { b := cloneBytes bytes }, err := none }

/-- The function literal that `Group.load` hands to `loader.Do`. -/
def Group.load.fn (fuel : Nat) (g : Group) (key : String) : Run :=
  let localRun (before : List Event) : Run :=
    match Group.getLocally fuel g key with
    | .returns (r, g1, evs) => .returns (r, g1, before ++ evs)
    | .panics msg => .panics msg
    | .outOfFuel => .outOfFuel
  match g.peers with
  | none => localRun []
  | some picker =>
    match picker key with
    | (_, false) => localRun [.pickPeer key]
    | (peer, true) =>
      match Group.getFromPeer g peer key with
      | .panics msg => .panics msg
      | .outOfFuel => .outOfFuel
      | .returns r =>
        match r.err with
        | none => .returns (r, g, [.pickPeer key, .peerGet g.name key])
        | some _ => localRun [.pickPeer key, .peerGet g.name key]

/-- Modelled from the spec: `singleflight.Group.Do`, whose package is not
among the sources. With no call for `key` in flight, which is the case in
every sequential run, it "creates an in-flight record for `key`", invokes
`loadFn` synchronously, removes the record and returns to the caller
whatever `loadFn` returned. -/
def singleflight.Do (key : String) (loadFn : Unit → Run) : Run :=
  match loadFn () with
  | .returns (r, g1, evs) => .returns (r, g1, Event.loaderDo key :: evs)
  | .panics msg => .panics msg
  | .outOfFuel => .outOfFuel

/-- The method `Group.load`: on an error the named result `value` is
returned, which is the empty `ByteView` on every path. -/
def Group.load (fuel : Nat) (g : Group) (key : String) : Run :=
  match singleflight.Do key (fun _ => Group.load.fn fuel g key) with
  | .returns (r, g1, evs) =>
    match r.err with
    | none => .returns ({ value := r.value, err := none }, g1, evs)
    | some err => .returns ({ value := { b := [] }, err := some err }, g1, evs)
  | .panics msg => .panics msg
  | .outOfFuel => .outOfFuel

/-- The method `Group.Get`. -/
def Group.Get (fuel : Nat) (g : Group) (key : String) : Run :=
  if key = "" then
    .returns ({ value := { b := [] }, err := some "key is required" }, g, [])
  else
    match (cache.get g.mainCache key).2 with
    | some v =>
      .returns ({ value := v, err := none },
        { g with mainCache := (cache.get g.mainCache key).1 }, [.cacheGet key])
    | none =>
      match Group.load fuel { g with mainCache := (cache.get g.mainCache key).1 } key with
      | .returns (r, g1, evs) => .returns (r, g1, Event.cacheGet key :: evs)
      | .panics msg => .panics msg
      | .outOfFuel => .outOfFuel

/-- The state of a `cache` in a running group: no store yet, or a store that
was created by `cache.add` (budget `cacheBytes`, no callback) and satisfies
the structural invariant of the LRU store. -/
def cache.Valid (c : cache) : Prop :=
  match c.lru with
  | none => True
  | some l => lru.Inv l ∧ l.maxBytes = c.cacheBytes

/-- The number of entries of the local shard. -/
def cache.len (c : cache) : Nat :=
  match c.lru with
  | none => 0
  | some l => l.ll.length

/-- What a run returned: result and events, `none` for a panic or a run that
is out of fuel. -/
def Run.returned : Run → Option (Result × List Event)
  | .returns (r, _, evs) => some (r, evs)
  | _ => none

/-- The group a run leaves behind. -/
def Run.group : Run → Option Group
  | .returns (_, g, _) => some g
  | _ => none

/-- A getter that answers every key with the three bytes `1, 2, 3`. -/
def demoGetter : Getter := .GetterFunc (fun _ => ([1, 2, 3], none))

/-- A fresh group with the budget `cacheBytes` and the getter `demoGetter`. -/
def demoGroup (cacheBytes : Int) : Group :=
  { name := "demo", getter := demoGetter, mainCache := { lru := none, cacheBytes := cacheBytes },
    peers := none }

/-- The local shard's answer for `key` in the group a run leaves behind. -/
def Run.cached (r : Run) (key : String) : Option (Option ByteView) :=
  r.group.map (fun g => (cache.get g.mainCache key).2)

/-- A second `Get` of the same key on the group the first run leaves behind. -/
def Run.again (fuel : Nat) (r : Run) (key : String) : Option (Result × List Event) :=
  r.group.bind (fun g => (Group.Get fuel g key).returned)

end geecache

/-! ## package geecache: routes of a load, the HTTP pool -/

namespace geecache

/-- A run with the events `before` put in front of its own. -/
def Run.after (before : List Event) : Run → Run
  | .returns (r, g, evs) => .returns (r, g, before ++ evs)
  | .panics msg => .panics msg
  | .outOfFuel => .outOfFuel

/-- The way the function literal of `Group.load` takes to the local source:
`some evs` when it calls `getLocally`, with the calls `evs` made to the peer
picker and the peer before (no picker bound, the picker reports
`ok = false`, or the peer's `Get` returns an error); `none` when a peer
answers the load or the picker hands out a nil peer with `ok = true`. -/
def Group.localRoute (g : Group) (key : String) : Option (List Event) :=
  match g.peers with
  | none => some []
  | some picker =>
    match picker key with
    | (_, false) => some [.pickPeer key]
    | (none, true) => none
    | (some p, true) =>
      match (p g.name key).2 with
      | some _ => some [.pickPeer key, .peerGet g.name key]
      | none => none

/-- Whether a run ended in a panic. -/
def Run.panicked : Run → Bool
  | .panics _ => true
  | _ => false

/-- The entries of the local shard, most recently used first. -/
def cache.entries (c : cache) : List (String × ByteView) :=
  match c.lru with
  | none => []
  | some l => l.ll.map (fun e => (e.kv.key, e.kv.value))

/-- A getter of a type other than `GetterFunc` that answers every key with
the three bytes `1, 2, 3`. -/
def structGetter : Getter := .other (fun _ => ([1, 2, 3], none))

/-- A peer that fails on every key. -/
def downPeer : PeerGetter := fun _ _ => ([], some "server returned 500")

/-- A peer that answers every key with the byte `7`. -/
def upPeer : PeerGetter := fun _ _ => ([7], none)

/-- A getter that fails on every key. -/
def failingGetter : Getter := .GetterFunc (fun _ => ([], some "not found"))

/-- The struct `httpGetter`. -/
structure httpGetter where
  baseURL : String
  deriving DecidableEq

/-- The constant `defaultBasePath`. -/
def defaultBasePath : String := "/_geecache/"

/-- The constant `defaultReplicas`. -/
def defaultReplicas : Int := 50

/-- The struct `HTTPPool`: `peers` is nil (`none`) until `Set`; a nil
`httpGetters` map reads like an empty one. -/
structure HTTPPool where
  self : String
  basePath : String
  peers : Option consistenthash.Map
  httpGetters : GoMap String httpGetter

/-- The constructor `NewHTTPPool`. -/
def NewHTTPPool (self : String) : HTTPPool :=
  { self := self, basePath := defaultBasePath, peers := none, httpGetters := [] }

/-- The method `HTTPPool.Set`. -/
def HTTPPool.Set (p : HTTPPool) (peers : List String) : HTTPPool :=
  { p with
      peers := some (consistenthash.Add (consistenthash.New defaultReplicas none) peers)
      httpGetters := peers.foldl
        (fun m peer => GoMap.set m peer { baseURL := peer ++ p.basePath }) [] }

/-- The method `HTTPPool.PickPeer`: the client is `none` for nil; the call
`p.peers.Get(key)` on a nil ring panics when it reads `m.keys`. -/
def HTTPPool.PickPeer (p : HTTPPool) (key : String) : Outcome (Option httpGetter × Bool) :=
  match p.peers with
  | none => .panics "invalid memory address or nil pointer dereference"
  | some m =>
    let peer := consistenthash.Get m key
    if peer = p.self ∨ peer = "" then .returns (none, false)
    else .returns (GoMap.get p.httpGetters peer, true)

/-- What `PickPeer` returned, `none` for a panic. -/
def Outcome.value? {α : Type} : Outcome α → Option α
  | .returns a => some a
  | _ => none

/-- The owner of a key on the ring of a pool, `""` for a pool without ring. -/
def HTTPPool.owner (p : HTTPPool) (key : String) : String :=
  match p.peers with
  | none => ""
  | some m => consistenthash.Get m key

/-- A group with budget 0, the getter `getter` and a peer picker that hands
out the peer `peer` for every key. -/
def peerGroup (peer : PeerGetter) (getter : Getter) : Group :=
  { name := "demo", getter := getter, mainCache := { lru := none, cacheBytes := 0 },
    peers := some (fun _ => (some peer, true)) }

/-- A group with the negative budget `-1`, the getter `demoGetter` and a
picker that hands out the peer `downPeer` for every key. -/
def starvedGroup : Group :=
  { name := "demo", getter := demoGetter, mainCache := { lru := none, cacheBytes := -1 },
    peers := some (fun _ => (some downPeer, true)) }

/-- The group `demoGroup 4` after a `Get` of the key `k`: the shard holds
`k` with the three bytes of `demoGetter`. -/
def warmGroup : Group :=
  { name := "demo", getter := demoGetter,
    mainCache :=
      { lru := some ⟨[⟨0, ⟨"k", ⟨[1, 2, 3]⟩⟩⟩], 4, 4, [("k", 0)], none, 1⟩, cacheBytes := 4 },
    peers := none }

end geecache

/-! ## Properties of Go maps -/

namespace GoMap

variable {α β : Type} [DecidableEq α]

theorem mem_of_get {m : GoMap α β} {a : α} {b : β} (h : get m a = some b) : (a, b) ∈ m := by
  induction m with
  | nil => simp [get] at h
  | cons p m ih =>
    obtain ⟨k, v⟩ := p
    by_cases hk : k = a
    · subst hk
      simp [get] at h
      simp [h]
    · simp [get, hk] at h
      exact List.mem_cons_of_mem _ (ih h)

theorem get_eq_none {m : GoMap α β} {a : α} (h : a ∉ keys m) : get m a = none := by
  induction m with
  | nil => rfl
  | cons p m ih =>
    obtain ⟨k, v⟩ := p
    simp [keys] at h
    have h1 : k ≠ a := fun e => h.1 e.symm
    simp only [get, h1, if_false]
    exact ih (by simpa [keys] using h.2)

theorem get_of_mem {m : GoMap α β} {a : α} {b : β} (hn : (keys m).Nodup) (h : (a, b) ∈ m) :
    get m a = some b := by
  induction m with
  | nil => simp at h
  | cons p m ih =>
    obtain ⟨k, v⟩ := p
    simp only [keys, List.map_cons, List.nodup_cons] at hn
    rcases List.mem_cons.1 h with h | h
    · cases h
      simp [get]
    · have hk : k ≠ a := by
        intro e
        subst e
        exact hn.1 (List.mem_map_of_mem Prod.fst h)
      simp only [get, hk, if_false]
      exact ih hn.2 h

theorem mem_keys_of_get {m : GoMap α β} {a : α} {b : β} (h : get m a = some b) : a ∈ keys m :=
  List.mem_map_of_mem Prod.fst (mem_of_get h)

theorem mem_delete {m : GoMap α β} {a : α} {p : α × β} :
    p ∈ delete m a ↔ p ∈ m ∧ p.1 ≠ a := by
  simp [delete, List.mem_filter]

theorem keys_delete (m : GoMap α β) (a : α) :
    keys (delete m a) = (keys m).filter (fun k => decide (k ≠ a)) := by
  simp [keys, delete, List.filter_map, Function.comp_def]

theorem nodup_keys_delete {m : GoMap α β} (a : α) (hn : (keys m).Nodup) :
    (keys (delete m a)).Nodup := by
  rw [keys_delete]
  exact hn.filter _

theorem not_mem_keys_delete (m : GoMap α β) (a : α) : a ∉ keys (delete m a) := by
  rw [keys_delete]
  simp

theorem nodup_keys_set {m : GoMap α β} (a : α) (b : β) (hn : (keys m).Nodup) :
    (keys (set m a b)).Nodup := by
  have h : keys (set m a b) = a :: keys (delete m a) := rfl
  rw [h]
  exact List.nodup_cons.2 ⟨not_mem_keys_delete m a, nodup_keys_delete a hn⟩

theorem delete_eq_self {m : GoMap α β} {a : α} (h : a ∉ keys m) : delete m a = m := by
  unfold delete
  rw [List.filter_eq_self]
  intro p hp
  have : p.1 ≠ a := by
    intro e
    exact h (e ▸ List.mem_map_of_mem Prod.fst hp)
  simpa using this

end GoMap

/-! ## Properties of the recency list -/

namespace lru

variable {V σ : Type}


theorem deref_some {l : List (Element V)} {id : Nat} {e : Element V}
    (h : deref l id = some e) : e ∈ l ∧ e.id = id := by
  unfold deref at h
  refine ⟨List.mem_of_find?_eq_some h, ?_⟩
  simpa using List.find?_some h

theorem deref_of_mem {l : List (Element V)} {e : Element V} (hn : (ids l).Nodup)
    (h : e ∈ l) : deref l e.id = some e := by
  induction l with
  | nil => simp at h
  | cons x xs ih =>
    simp only [ids, List.map_cons, List.nodup_cons] at hn
    rcases List.mem_cons.1 h with h | h
    · subst h
      simp [deref]
    · have hx : x.id ≠ e.id := by
        intro he
        exact hn.1 (he ▸ List.mem_map_of_mem (fun e => e.id) h)
      have := ih hn.2 h
      unfold deref at this ⊢
      simp [List.find?_cons, hx, this]

theorem deref_none {l : List (Element V)} {id : Nat} (h : deref l id = none) :
    id ∉ ids l := by
  unfold deref at h
  rw [List.find?_eq_none] at h
  intro hm
  obtain ⟨e, he, rfl⟩ := List.mem_map.1 hm
  exact h e he (by simp)

theorem mem_Remove {l : List (Element V)} {id : Nat} {x : Element V} :
    x ∈ Remove l id ↔ x ∈ l ∧ x.id ≠ id := by
  simp [Remove, List.mem_filter]

theorem Remove_eq_self {l : List (Element V)} {id : Nat} (h : id ∉ ids l) :
    Remove l id = l := by
  unfold Remove
  rw [List.filter_eq_self]
  intro x hx
  have : x.id ≠ id := fun e => h (e ▸ List.mem_map_of_mem (fun e => e.id) hx)
  simpa using this

/-- Taking one cell out of a list with distinct identities leaves a
permutation of the list behind it. -/
theorem perm_cons_Remove {l : List (Element V)} {e : Element V} (hn : (ids l).Nodup)
    (h : e ∈ l) : l.Perm (e :: Remove l e.id) := by
  induction l with
  | nil => simp at h
  | cons x xs ih =>
    have hn1 := hn
    simp only [ids, List.map_cons, List.nodup_cons] at hn1
    rcases List.mem_cons.1 h with h | h
    · subst h
      have : Remove (e :: xs) e.id = xs := by
        have h1 : Remove (e :: xs) e.id = Remove xs e.id := by simp [Remove]
        rw [h1]
        exact Remove_eq_self hn1.1
      rw [this]
    · have hx : x.id ≠ e.id := by
        intro he
        exact hn1.1 (he ▸ List.mem_map_of_mem (fun e => e.id) h)
      have h1 : Remove (x :: xs) e.id = x :: Remove xs e.id := by simp [Remove, hx]
      rw [h1]
      exact ((ih hn1.2 h).cons x).trans (List.Perm.swap e x _)

/-- Removing the last cell of a list with distinct identities drops it and
keeps the order of the rest. -/
theorem Remove_concat {l : List (Element V)} {e : Element V} (hn : (ids (l ++ [e])).Nodup) :
    Remove (l ++ [e]) e.id = l := by
  have h1 : e.id ∉ ids l := by
    simp only [ids, List.map_append, List.map_cons, List.map_nil] at hn
    have := (List.nodup_append.1 hn).2.2
    intro hm
    exact this hm (by simp) 
  unfold Remove
  rw [List.filter_append]
  have h2 := Remove_eq_self h1
  unfold Remove at h2
  rw [h2]
  simp

theorem Back_some {l : List (Element V)} {e : Element V} (h : Back l = some e) :
    l = l.dropLast ++ [e] := by
  unfold Back at h
  rcases List.eq_nil_or_concat l with h0 | ⟨xs, x, h0⟩
  · subst h0
    simp at h
  · subst h0
    simp at h
    subst h
    simp

theorem Back_mem {l : List (Element V)} {e : Element V} (h : Back l = some e) : e ∈ l := by
  rw [Back_some h]
  simp

theorem Back_none {l : List (Element V)} (h : Back l = none) : l = [] := by
  unfold Back at h
  simpa using h

theorem MoveToFront_of_deref {l : List (Element V)} {id : Nat} {e : Element V}
    (h : deref l id = some e) : MoveToFront l id = e :: Remove l id := by
  simp [MoveToFront, h]

theorem setValue_Remove (l : List (Element V)) (id : Nat) (v : V) :
    setValue (Remove l id) id v = Remove l id := by
  unfold setValue
  conv_rhs => rw [← List.map_id (Remove l id)]
  apply List.map_congr_left
  intro x hx
  have := (mem_Remove.1 hx).2
  simp [this]

theorem setValue_MoveToFront {l : List (Element V)} {id : Nat} {e : Element V} (v : V)
    (h : deref l id = some e) :
    setValue (MoveToFront l id) id v
      = { id := id, kv := { key := e.kv.key, value := v } } :: Remove l id := by
  rw [MoveToFront_of_deref h]
  have h1 := setValue_Remove l id v
  have h2 := (deref_some h).2
  unfold setValue at h1 ⊢
  rw [List.map_cons, h1]
  simp [h2]

end lru

/-! ## The structural invariant of the store -/

namespace lru

variable {V σ : Type}


theorem Inv_New [Value V] (maxBytes : Int) (cb : Option (String → V → σ → σ)) :
    Inv (New maxBytes cb) := by
  constructor <;> simp [New, ids, llKeys, GoMap.keys, total]

theorem Inv_perm [Value V] {c : Cache V σ} (h : Inv c) {l : List (Element V)}
    (hp : c.ll.Perm l) : Inv { c with ll := l } := by
  constructor
  · exact (hp.map _).nodup_iff.1 h.ids_nodup
  · exact (hp.map _).nodup_iff.1 h.keys_nodup
  · exact h.index_nodup
  · intro k id
    rw [h.index_iff]
    constructor
    · rintro ⟨e, he, h1⟩
      exact ⟨e, hp.mem_iff.1 he, h1⟩
    · rintro ⟨e, he, h1⟩
      exact ⟨e, hp.mem_iff.2 he, h1⟩
  · show c.nbytes = total l
    rw [h.bytes]
    exact (hp.map _).sum_eq
  · intro e he
    exact h.fresh e (hp.mem_iff.2 he)

theorem Inv.get_some [Value V] {c : Cache V σ} (h : Inv c) {k : String} {id : Nat}
    (hg : GoMap.get c.cache k = some id) :
    ∃ e, deref c.ll id = some e ∧ e ∈ c.ll ∧ e.id = id ∧ e.kv.key = k := by
  obtain ⟨e, he, h1, h2⟩ := (h.index_iff k id).1 (GoMap.mem_of_get hg)
  exact ⟨e, h1 ▸ deref_of_mem h.ids_nodup he, he, h1, h2⟩

theorem Inv.get_none [Value V] {c : Cache V σ} (h : Inv c) {k : String}
    (hg : GoMap.get c.cache k = none) : k ∉ llKeys c.ll := by
  intro hm
  obtain ⟨e, he, rfl⟩ := List.mem_map.1 hm
  have := GoMap.get_of_mem h.index_nodup ((h.index_iff e.kv.key e.id).2 ⟨e, he, rfl, rfl⟩)
  rw [this] at hg
  cases hg

theorem Inv.index_of_mem [Value V] {c : Cache V σ} (h : Inv c) {e : Element V} (he : e ∈ c.ll) :
    GoMap.get c.cache e.kv.key = some e.id :=
  GoMap.get_of_mem h.index_nodup ((h.index_iff e.kv.key e.id).2 ⟨e, he, rfl, rfl⟩)

theorem Inv_Get [Value V] {c : Cache V σ} (h : Inv c) (key : String) : Inv (Get c key).1 := by
  unfold Get
  cases hg : GoMap.get c.cache key with
  | none => exact h
  | some id =>
    obtain ⟨e, hd, he, -, -⟩ := h.get_some hg
    simp only [hd]
    rw [MoveToFront_of_deref hd]
    have := perm_cons_Remove h.ids_nodup he
    rw [(deref_some hd).2] at this
    exact Inv_perm h this

theorem Inv_RemoveOldest [Value V] {c : Cache V σ} (h : Inv c) (w : σ) :
    Inv (RemoveOldest c w).1 := by
  unfold RemoveOldest
  cases hb : Back c.ll with
  | none => exact h
  | some e =>
    have he := Back_mem hb
    have hp := perm_cons_Remove h.ids_nodup he
    have hid : (ids (e :: Remove c.ll e.id)).Nodup := (hp.map _).nodup_iff.1 h.ids_nodup
    have hk : (llKeys (e :: Remove c.ll e.id)).Nodup := (hp.map _).nodup_iff.1 h.keys_nodup
    simp only [ids, llKeys, List.map_cons, List.nodup_cons] at hid hk
    constructor
    · exact hid.2
    · exact hk.2
    · exact GoMap.nodup_keys_delete _ h.index_nodup
    · intro k id
      show (k, id) ∈ GoMap.delete c.cache e.kv.key ↔ ∃ x ∈ Remove c.ll e.id, x.id = id ∧ x.kv.key = k
      rw [GoMap.mem_delete, h.index_iff]
      constructor
      · rintro ⟨⟨x, hx, h1, h2⟩, h3⟩
        rcases List.mem_cons.1 (hp.mem_iff.1 hx) with hxe | hxr
        · subst hxe
          exact absurd h2 (fun e => h3 e.symm)
        · exact ⟨x, hxr, h1, h2⟩
      · rintro ⟨x, hx, h1, h2⟩
        refine ⟨⟨x, (mem_Remove.1 hx).1, h1, h2⟩, ?_⟩
        intro hke
        apply hk.1
        simp only at hke
        rw [← hke, ← h2]
        exact List.mem_map_of_mem (fun e => e.kv.key) hx
    · show c.nbytes - ((e.kv.key.utf8ByteSize : Int) + (Value.Len e.kv.value : Int))
        = total (Remove c.ll e.id)
      have := (hp.map (fun e => e.kv.size)).sum_eq
      rw [h.bytes]
      simp only [total, List.map_cons, List.sum_cons, entry.size] at this ⊢
      omega
    · intro x hx
      exact h.fresh x (mem_Remove.1 hx).1

theorem Inv_insert [Value V] {c : Cache V σ} (h : Inv c) (key : String) (value : V) :
    Inv (Add.insert c key value) := by
  unfold Add.insert
  cases hg : GoMap.get c.cache key with
  | some id =>
    obtain ⟨e, hd, he, hid, hkey⟩ := h.get_some hg
    simp only [hd]
    rw [setValue_MoveToFront value hd]
    have hp := perm_cons_Remove h.ids_nodup he
    rw [hid] at hp
    have hid1 : (ids (e :: Remove c.ll id)).Nodup := (hp.map _).nodup_iff.1 h.ids_nodup
    have hk1 : (llKeys (e :: Remove c.ll id)).Nodup := (hp.map _).nodup_iff.1 h.keys_nodup
    simp only [ids, llKeys, List.map_cons] at hid1 hk1
    constructor
    · simpa [ids, hid] using hid1
    · simpa [llKeys] using hk1
    · exact h.index_nodup
    · intro k i
      rw [h.index_iff]
      constructor
      · rintro ⟨x, hx, h1, h2⟩
        rcases List.mem_cons.1 (hp.mem_iff.1 hx) with hxe | hxr
        · subst hxe
          exact ⟨_, List.mem_cons_self _ _, by simpa [hid] using h1, h2⟩
        · exact ⟨x, List.mem_cons_of_mem _ hxr, h1, h2⟩
      · rintro ⟨x, hx, h1, h2⟩
        rcases List.mem_cons.1 hx with hxe | hxr
        · subst hxe
          exact ⟨e, he, by simpa [hid] using h1, h2⟩
        · exact ⟨x, (mem_Remove.1 hxr).1, h1, h2⟩
    · have := (hp.map (fun e => e.kv.size)).sum_eq
      show c.nbytes + ((Value.Len value : Int) - (Value.Len e.kv.value : Int)) = _
      rw [h.bytes]
      simp only [total, List.map_cons, List.sum_cons, entry.size] at this ⊢
      omega
    · intro x hx
      rcases List.mem_cons.1 hx with hxe | hxr
      · subst hxe
        simpa [hid] using h.fresh e he
      · exact h.fresh x (mem_Remove.1 hxr).1
  | none =>
    have hk := h.get_none hg
    have hck : key ∉ GoMap.keys c.cache := by
      intro hm
      obtain ⟨p, hp, rfl⟩ := List.mem_map.1 hm
      exact hk (by
        obtain ⟨x, hx, -, h2⟩ := (h.index_iff p.1 p.2).1 hp
        exact h2 ▸ List.mem_map_of_mem (fun e => e.kv.key) hx)
    have hfresh : c.next ∉ ids c.ll := by
      intro hm
      obtain ⟨x, hx, h1⟩ := List.mem_map.1 hm
      have := h.fresh x hx
      omega
    constructor
    · simpa [PushFront, ids] using And.intro (by simpa [ids] using hfresh) h.ids_nodup
    · simpa [PushFront, llKeys] using And.intro (by simpa [llKeys] using hk) h.keys_nodup
    · exact GoMap.nodup_keys_set _ _ h.index_nodup
    · intro k i
      show (k, i) ∈ GoMap.set c.cache key c.next ↔ ∃ x ∈ PushFront c.ll c.next _, _
      unfold GoMap.set PushFront
      rw [GoMap.delete_eq_self hck, List.mem_cons, h.index_iff]
      constructor
      · rintro (h1 | ⟨x, hx, h1, h2⟩)
        · cases h1
          exact ⟨_, List.mem_cons_self _ _, rfl, rfl⟩
        · exact ⟨x, List.mem_cons_of_mem _ hx, h1, h2⟩
      · rintro ⟨x, hx, h1, h2⟩
        rcases List.mem_cons.1 hx with hxe | hxr
        · subst hxe
          left
          simp only at h1 h2
          rw [h1, h2]
        · right
          exact ⟨x, hxr, h1, h2⟩
    · show c.nbytes + _ = total (PushFront c.ll c.next _)
      rw [h.bytes]
      simp only [total, PushFront, List.map_cons, List.sum_cons, entry.size]
      omega
    · intro x hx
      rcases List.mem_cons.1 hx with hxe | hxr
      · subst hxe
        show c.next < c.next + 1
        omega
      · have := h.fresh x hxr
        show x.id < c.next + 1
        omega

theorem Inv_loop [Value V] (fuel : Nat) {c c1 : Cache V σ} {w w1 : σ} (h : Inv c)
    (hl : Add.loop fuel c w = some (c1, w1)) : Inv c1 := by
  induction fuel generalizing c w with
  | zero =>
    unfold Add.loop at hl
    split at hl
    · cases hl
    · cases hl
      exact h
  | succ n ih =>
    unfold Add.loop at hl
    split at hl
    · exact ih (Inv_RemoveOldest h w) hl
    · cases hl
      exact h

theorem Inv_call [Value V] (fuel : Nat) {s s1 : Cache V σ × σ} (op : Call V) (h : Inv s.1)
    (hc : call fuel s op = some s1) : Inv s1.1 := by
  cases op with
  | Add key value => exact Inv_loop fuel (Inv_insert h key value) hc
  | Get key =>
    cases hc
    exact Inv_Get h key
  | RemoveOldest =>
    cases hc
    exact Inv_RemoveOldest h s.2

theorem Inv_calls [Value V] (fuel : Nat) (ops : List (Call V)) {s s1 : Cache V σ × σ}
    (h : Inv s.1) (hc : calls fuel s ops = some s1) : Inv s1.1 := by
  induction ops generalizing s with
  | nil =>
    cases hc
    exact h
  | cons op ops ih =>
    unfold calls at hc
    cases h1 : call fuel s op with
    | none => simp [h1] at hc
    | some s2 =>
      rw [h1] at hc
      exact ih (Inv_call fuel op h h1) hc

end lru

/-! ## What each method does to a store that satisfies the invariant -/

namespace lru

variable {V σ : Type}



theorem Remove_eq_without {l : List (Element V)} {e : Element V} (hi : (ids l).Nodup)
    (hk : (llKeys l).Nodup) (he : e ∈ l) : Remove l e.id = without l e.kv.key := by
  unfold Remove without
  apply List.filter_congr
  intro x hx
  by_cases h1 : x = e
  · subst h1
    simp
  · have h2 : x.id ≠ e.id := fun h => h1 (List.inj_on_of_nodup_map hi hx he h)
    have h3 : x.kv.key ≠ e.kv.key := fun h => h1 (List.inj_on_of_nodup_map hk hx he h)
    simp [h2, h3]

theorem without_eq_self {l : List (Element V)} {key : String} (h : key ∉ llKeys l) :
    without l key = l := by
  unfold without
  rw [List.filter_eq_self]
  intro x hx
  have : x.kv.key ≠ key := fun e => h (e ▸ List.mem_map_of_mem (fun e => e.kv.key) hx)
  simpa using this

theorem RemoveOldest_ll [Value V] {c : Cache V σ} (h : Inv c) (w : σ) :
    (RemoveOldest c w).1.ll = c.ll.dropLast := by
  unfold RemoveOldest
  cases hb : Back c.ll with
  | none => simp [Back_none hb]
  | some e =>
    have h1 := Back_some hb
    have h2 := h.ids_nodup
    rw [h1] at h2
    show Remove c.ll e.id = c.ll.dropLast
    conv_lhs => rw [h1]
    exact Remove_concat h2

theorem RemoveOldest_world [Value V] (c : Cache V σ) (w : σ) :
    (RemoveOldest c w).2 = match Back c.ll with
      | some e => notify c.OnEvicted w e
      | none => w := by
  unfold RemoveOldest notify
  cases Back c.ll <;> rfl

theorem RemoveOldest_maxBytes [Value V] (c : Cache V σ) (w : σ) :
    (RemoveOldest c w).1.maxBytes = c.maxBytes := by
  unfold RemoveOldest
  cases Back c.ll <;> rfl

theorem RemoveOldest_OnEvicted [Value V] (c : Cache V σ) (w : σ) :
    (RemoveOldest c w).1.OnEvicted = c.OnEvicted := by
  unfold RemoveOldest
  cases Back c.ll <;> rfl

theorem RemoveOldest_nbytes_le [Value V] (c : Cache V σ) (w : σ) (hs : SizesNonneg c) :
    (RemoveOldest c w).1.nbytes ≤ c.nbytes := by
  unfold RemoveOldest
  cases hb : Back c.ll with
  | none => exact le_refl _
  | some e =>
    have h0 := hs e (Back_mem hb)
    unfold entry.size at h0
    show c.nbytes - _ ≤ c.nbytes
    omega

theorem Get_maxBytes (c : Cache V σ) (key : String) : (Get c key).1.maxBytes = c.maxBytes := by
  unfold Get
  repeat' split
  all_goals rfl

theorem Get_nbytes (c : Cache V σ) (key : String) : (Get c key).1.nbytes = c.nbytes := by
  unfold Get
  repeat' split
  all_goals rfl

theorem Get_ll_length [Value V] {c : Cache V σ} (h : Inv c) (key : String) :
    (Get c key).1.ll.length = c.ll.length := by
  unfold Get
  cases hg : GoMap.get c.cache key with
  | none => rfl
  | some id =>
    obtain ⟨e, hd, he, hid, -⟩ := h.get_some hg
    simp only [hd]
    rw [MoveToFront_of_deref hd]
    have := (perm_cons_Remove h.ids_nodup he).length_eq
    rw [hid] at this
    exact this.symm

theorem insert_maxBytes [Value V] (c : Cache V σ) (key : String) (value : V) :
    (Add.insert c key value).maxBytes = c.maxBytes := by
  unfold Add.insert
  repeat' split
  all_goals rfl

theorem insert_OnEvicted [Value V] (c : Cache V σ) (key : String) (value : V) :
    (Add.insert c key value).OnEvicted = c.OnEvicted := by
  unfold Add.insert
  repeat' split
  all_goals rfl

/-- After the first half of `Add` the cell of `key` is at the front, holds
`value`, and the other cells follow in their previous order. -/
theorem insert_ll [Value V] {c : Cache V σ} (h : Inv c) (key : String) (value : V) :
    ∃ id, (Add.insert c key value).ll
      = { id := id, kv := { key := key, value := value } } :: without c.ll key := by
  unfold Add.insert
  cases hg : GoMap.get c.cache key with
  | some id =>
    obtain ⟨e, hd, he, hid, hkey⟩ := h.get_some hg
    simp only [hd]
    rw [setValue_MoveToFront value hd, ← hid, Remove_eq_without h.ids_nodup h.keys_nodup he,
      hkey]
    exact ⟨_, rfl⟩
  | none =>
    rw [without_eq_self (h.get_none hg)]
    exact ⟨c.next, rfl⟩

theorem insert_ll_length [Value V] {c : Cache V σ} (h : Inv c) (key : String) (value : V) :
    (Add.insert c key value).ll.length ≤ c.ll.length + 1 := by
  obtain ⟨id, hid⟩ := insert_ll h key value
  rw [hid, List.length_cons]
  exact Nat.succ_le_succ (List.length_filter_le _ _)

/-- A hit of `Get` returns the value of the cell that carries the key and
moves that cell to the front; index and byte total stay as they are. -/
theorem Get_hit [Value V] {c : Cache V σ} (h : Inv c) {e : Element V} (he : e ∈ c.ll) :
    Get c e.kv.key = ({ c with ll := e :: without c.ll e.kv.key }, some e.kv.value) := by
  unfold Get
  rw [h.index_of_mem he]
  have hd := deref_of_mem h.ids_nodup he
  simp only [hd]
  rw [MoveToFront_of_deref hd, Remove_eq_without h.ids_nodup h.keys_nodup he]

theorem Get_miss [Value V] {c : Cache V σ} (h : Inv c) {key : String} (hk : key ∉ llKeys c.ll) :
    Get c key = (c, none) := by
  unfold Get
  cases hg : GoMap.get c.cache key with
  | none => rfl
  | some id =>
    obtain ⟨e, -, he, -, hkey⟩ := h.get_some hg
    exact absurd (hkey ▸ List.mem_map_of_mem (fun e => e.kv.key) he) hk

/-- The value `Get` returns is the value of the cell that carries the key. -/
theorem Get_eq_some_iff [Value V] {c : Cache V σ} (h : Inv c) (key : String) (v : V) :
    (Get c key).2 = some v ↔ ∃ e ∈ c.ll, e.kv.key = key ∧ e.kv.value = v := by
  constructor
  · intro hg
    by_cases hk : key ∈ llKeys c.ll
    · obtain ⟨e, he, rfl⟩ := List.mem_map.1 hk
      rw [Get_hit h he] at hg
      exact ⟨e, he, rfl, by simpa using hg⟩
    · rw [Get_miss h hk] at hg
      cases hg
  · rintro ⟨e, he, rfl, rfl⟩
    rw [Get_hit h he]

theorem Get_eq_none_iff [Value V] {c : Cache V σ} (h : Inv c) (key : String) :
    (Get c key).2 = none ↔ key ∉ llKeys c.ll := by
  constructor
  · intro hg hk
    obtain ⟨e, he, rfl⟩ := List.mem_map.1 hk
    rw [Get_hit h he] at hg
    cases hg
  · intro hk
    rw [Get_miss h hk]

/-! ### The eviction loop -/


theorem loop_of_not_over [Value V] (fuel : Nat) {c : Cache V σ} (w : σ) (h : ¬ over c) :
    Add.loop fuel c w = some (c, w) := by
  unfold over at h
  cases fuel <;> simp [Add.loop, h]

theorem loop_of_over [Value V] (fuel : Nat) {c : Cache V σ} (w : σ) (h : over c) :
    Add.loop (fuel + 1) c w = Add.loop fuel (RemoveOldest c w).1 (RemoveOldest c w).2 := by
  unfold over at h
  simp [Add.loop, h]

/-- What the loop leaves behind when it exits: the budget and the callback
are untouched, the loop condition is false, the cells removed are a suffix of
the list (the least recently used ones) and the callback has seen exactly
them, the last cell first. -/
theorem loop_spec [Value V] (fuel : Nat) {c c1 : Cache V σ} {w w1 : σ} (h : Inv c)
    (hl : Add.loop fuel c w = some (c1, w1)) :
    c1.maxBytes = c.maxBytes ∧ c1.OnEvicted = c.OnEvicted ∧ ¬ over c1 ∧
      ∃ removed, c.ll = c1.ll ++ removed ∧
        w1 = removed.reverse.foldl (notify c.OnEvicted) w := by
  induction fuel generalizing c w with
  | zero =>
    unfold Add.loop at hl
    split at hl
    · cases hl
    · rename_i hc
      cases hl
      exact ⟨rfl, rfl, hc, [], by simp, rfl⟩
  | succ n ih =>
    unfold Add.loop at hl
    split at hl
    · obtain ⟨h1, h2, h3, removed, h4, h5⟩ := ih (Inv_RemoveOldest h w) hl
      rw [RemoveOldest_maxBytes] at h1
      rw [RemoveOldest_OnEvicted] at h2 h5
      rw [RemoveOldest_ll h] at h4
      refine ⟨h1, h2, h3, ?_⟩
      cases hb : Back c.ll with
      | none =>
        have hnil := Back_none hb
        rw [RemoveOldest_world, hb] at h5
        refine ⟨removed, ?_, h5⟩
        rw [hnil] at h4 ⊢
        simpa using h4
      | some e =>
        rw [RemoveOldest_world, hb] at h5
        refine ⟨removed ++ [e], ?_, ?_⟩
        · rw [← List.append_assoc, ← h4]
          exact Back_some hb
        · simp only [List.reverse_append, List.reverse_cons, List.reverse_nil, List.nil_append,
            List.singleton_append, List.foldl_cons]
          exact h5
    · rename_i hc
      cases hl
      exact ⟨rfl, rfl, hc, [], by simp, rfl⟩

theorem total_nonneg [Value V] (l : List (Element V)) (hs : ∀ e ∈ l, 0 ≤ e.kv.size) :
    0 ≤ total l := by
  induction l with
  | nil => simp [total]
  | cons x xs ih =>
    have h1 := hs x (List.mem_cons_self _ _)
    have h2 := ih (fun e he => hs e (List.mem_cons_of_mem _ he))
    simp only [total, List.map_cons, List.sum_cons] at h2 ⊢
    omega

/-- With a budget that is not negative the loop exits after at most as many
iterations as the list has cells. -/
theorem loop_terminates [Value V] (fuel : Nat) {c : Cache V σ} (w : σ) (h : Inv c)
    (hb : 0 ≤ c.maxBytes) (hf : c.ll.length ≤ fuel) : ∃ s, Add.loop fuel c w = some s := by
  induction fuel generalizing c w with
  | zero =>
    have hnil : c.ll = [] := List.length_eq_zero.1 (Nat.le_zero.1 hf)
    have : ¬ over c := by
      rintro ⟨-, h2⟩
      rw [h.bytes, hnil] at h2
      simp [total] at h2
      omega
    exact ⟨_, loop_of_not_over 0 w this⟩
  | succ n ih =>
    by_cases ho : over c
    · rw [loop_of_over n w ho]
      apply ih _ (Inv_RemoveOldest h w)
      · rw [RemoveOldest_maxBytes]
        exact hb
      · rw [RemoveOldest_ll h, List.length_dropLast]
        omega
    · exact ⟨_, loop_of_not_over _ w ho⟩

/-! ### Entries with sizes that are not negative -/

theorem SizesNonneg_New [Value V] (maxBytes : Int) (cb : Option (String → V → σ → σ)) :
    SizesNonneg (New maxBytes cb) := by
  intro e he
  cases he

theorem SizesNonneg_Get [Value V] {c : Cache V σ} (h : Inv c) (hs : SizesNonneg c)
    (key : String) : SizesNonneg (Get c key).1 := by
  by_cases hk : key ∈ llKeys c.ll
  · obtain ⟨e, he, rfl⟩ := List.mem_map.1 hk
    rw [Get_hit h he]
    intro x hx
    rcases List.mem_cons.1 hx with hx | hx
    · exact hx ▸ hs e he
    · exact hs x (List.mem_filter.1 hx).1
  · rw [Get_miss h hk]
    exact hs

theorem SizesNonneg_RemoveOldest [Value V] {c : Cache V σ} (h : Inv c) (hs : SizesNonneg c)
    (w : σ) : SizesNonneg (RemoveOldest c w).1 := by
  intro e he
  rw [RemoveOldest_ll h] at he
  exact hs e (List.mem_of_mem_dropLast he)

theorem SizesNonneg_insert [Value V] {c : Cache V σ} (h : Inv c) (hs : SizesNonneg c)
    (key : String) {value : V} (hv : 0 ≤ Value.Len value) :
    SizesNonneg (Add.insert c key value) := by
  obtain ⟨id, hll⟩ := insert_ll h key value
  intro e he
  rw [hll] at he
  rcases List.mem_cons.1 he with he | he
  · rw [he]
    unfold entry.size
    simp only
    omega
  · exact hs e (List.mem_filter.1 he).1

theorem SizesNonneg_loop [Value V] (fuel : Nat) {c c1 : Cache V σ} {w w1 : σ} (h : Inv c)
    (hs : SizesNonneg c) (hl : Add.loop fuel c w = some (c1, w1)) : SizesNonneg c1 := by
  obtain ⟨-, -, -, removed, h4, -⟩ := loop_spec fuel h hl
  intro e he
  apply hs
  rw [h4]
  exact List.mem_append_left _ he

theorem SizesNonneg_call [Value V] (fuel : Nat) {s s1 : Cache V σ × σ} (op : Call V)
    (h : Inv s.1) (hs : SizesNonneg s.1) (hop : op.lenNonneg)
    (hc : call fuel s op = some s1) : SizesNonneg s1.1 := by
  cases op with
  | Add key value =>
    exact SizesNonneg_loop fuel (Inv_insert h key value) (SizesNonneg_insert h hs key hop) hc
  | Get key =>
    cases hc
    exact SizesNonneg_Get h hs key
  | RemoveOldest =>
    cases hc
    exact SizesNonneg_RemoveOldest h hs s.2

end lru

/-! ## Sequences of calls -/

namespace lru

variable {V σ : Type}

theorem call_frame [Value V] (fuel : Nat) {s s1 : Cache V σ × σ} (op : Call V) (h : Inv s.1)
    (hc : call fuel s op = some s1) :
    s1.1.maxBytes = s.1.maxBytes ∧ s1.1.OnEvicted = s.1.OnEvicted ∧
      s1.1.ll.length ≤ s.1.ll.length + 1 := by
  cases op with
  | Add key value =>
    obtain ⟨h1, h2, -, removed, h4, -⟩ := loop_spec fuel (Inv_insert h key value) hc
    rw [insert_maxBytes] at h1
    rw [insert_OnEvicted] at h2
    refine ⟨h1, h2, ?_⟩
    have h5 := insert_ll_length h key value
    rw [h4, List.length_append] at h5
    omega
  | Get key =>
    cases hc
    refine ⟨Get_maxBytes _ _, ?_, ?_⟩
    · show (Get s.1 key).1.OnEvicted = s.1.OnEvicted
      unfold Get
      repeat' split
      all_goals rfl
    · show (Get s.1 key).1.ll.length ≤ _
      rw [Get_ll_length h]
      omega
  | RemoveOldest =>
    cases hc
    refine ⟨RemoveOldest_maxBytes _ _, RemoveOldest_OnEvicted _ _, ?_⟩
    rw [RemoveOldest_ll h, List.length_dropLast]
    omega

theorem calls_frame [Value V] (fuel : Nat) (ops : List (Call V)) {s s1 : Cache V σ × σ}
    (h : Inv s.1) (hc : calls fuel s ops = some s1) :
    s1.1.maxBytes = s.1.maxBytes ∧ s1.1.OnEvicted = s.1.OnEvicted := by
  induction ops generalizing s with
  | nil =>
    cases hc
    exact ⟨rfl, rfl⟩
  | cons op ops ih =>
    unfold calls at hc
    cases h1 : call fuel s op with
    | none => simp [h1] at hc
    | some s2 =>
      rw [h1] at hc
      obtain ⟨h2, h3, -⟩ := call_frame fuel op h h1
      obtain ⟨h4, h5⟩ := ih (Inv_call fuel op h h1) hc
      exact ⟨h4.trans h2, h5.trans h3⟩

/-- With a budget that is not negative every call completes once it has as
much fuel as the list has cells after the insertion. -/
theorem call_terminates [Value V] (fuel : Nat) (s : Cache V σ × σ) (op : Call V) (h : Inv s.1)
    (hb : 0 ≤ s.1.maxBytes) (hf : s.1.ll.length + 1 ≤ fuel) : ∃ s1, call fuel s op = some s1 := by
  cases op with
  | Add key value =>
    apply loop_terminates fuel s.2 (Inv_insert h key value)
    · rw [insert_maxBytes]
      exact hb
    · have := insert_ll_length h key value
      omega
  | Get key => exact ⟨_, rfl⟩
  | RemoveOldest => exact ⟨_, rfl⟩

theorem calls_terminates [Value V] (fuel : Nat) (ops : List (Call V)) (s : Cache V σ × σ)
    (h : Inv s.1) (hb : 0 ≤ s.1.maxBytes) (hf : s.1.ll.length + ops.length ≤ fuel) :
    ∃ s1, calls fuel s ops = some s1 := by
  induction ops generalizing s with
  | nil => exact ⟨s, rfl⟩
  | cons op ops ih =>
    rw [List.length_cons] at hf
    obtain ⟨s2, h2⟩ := call_terminates fuel s op h hb (by omega)
    obtain ⟨h3, -, h4⟩ := call_frame fuel op h h2
    obtain ⟨s3, h5⟩ := ih s2 (Inv_call fuel op h h2) (h3 ▸ hb) (by omega)
    refine ⟨s3, ?_⟩
    unfold calls
    rw [h2]
    exact h5

theorem call_budget [Value V] (fuel : Nat) {s s1 : Cache V σ × σ} (op : Call V) (h : Inv s.1)
    (hb : 0 < s.1.maxBytes) (hn : s.1.nbytes ≤ s.1.maxBytes)
    (hr : op = Call.RemoveOldest → SizesNonneg s.1)
    (hc : call fuel s op = some s1) : s1.1.nbytes ≤ s1.1.maxBytes := by
  cases op with
  | Add key value =>
    obtain ⟨h1, -, h3, -⟩ := loop_spec fuel (Inv_insert h key value) hc
    rw [insert_maxBytes] at h1
    unfold over at h3
    by_contra hlt
    exact h3 ⟨by omega, by omega⟩
  | Get key =>
    cases hc
    show (Get s.1 key).1.nbytes ≤ (Get s.1 key).1.maxBytes
    rw [Get_nbytes, Get_maxBytes]
    exact hn
  | RemoveOldest =>
    cases hc
    show (RemoveOldest s.1 s.2).1.nbytes ≤ (RemoveOldest s.1 s.2).1.maxBytes
    rw [RemoveOldest_maxBytes]
    exact le_trans (RemoveOldest_nbytes_le _ _ (hr rfl)) hn

/-- The budget is kept along a sequence of calls that hands no value with a
negative `Len()` to the store. -/
theorem calls_budget [Value V] (fuel : Nat) (ops : List (Call V)) {s s1 : Cache V σ × σ}
    (h : Inv s.1) (hs : SizesNonneg s.1) (hb : 0 < s.1.maxBytes)
    (hn : s.1.nbytes ≤ s.1.maxBytes) (hops : ∀ op ∈ ops, op.lenNonneg)
    (hc : calls fuel s ops = some s1) : s1.1.nbytes ≤ s1.1.maxBytes := by
  induction ops generalizing s with
  | nil =>
    cases hc
    exact hn
  | cons op ops ih =>
    unfold calls at hc
    cases h1 : call fuel s op with
    | none => simp [h1] at hc
    | some s2 =>
      rw [h1] at hc
      obtain ⟨h2, -, -⟩ := call_frame fuel op h h1
      exact ih (Inv_call fuel op h h1)
        (SizesNonneg_call fuel op h hs (hops op (List.mem_cons_self _ _)) h1) (h2 ▸ hb)
        (call_budget fuel op h hb hn (fun _ => hs) h1)
        (fun o ho => hops o (List.mem_cons_of_mem _ ho)) hc

/-- The budget is kept along every sequence of `Add` and `Get` calls. -/
theorem calls_budget_of_no_remove [Value V] (fuel : Nat) (ops : List (Call V))
    {s s1 : Cache V σ × σ} (h : Inv s.1) (hb : 0 < s.1.maxBytes)
    (hn : s.1.nbytes ≤ s.1.maxBytes) (hops : ∀ op ∈ ops, op ≠ Call.RemoveOldest)
    (hc : calls fuel s ops = some s1) : s1.1.nbytes ≤ s1.1.maxBytes := by
  induction ops generalizing s with
  | nil =>
    cases hc
    exact hn
  | cons op ops ih =>
    unfold calls at hc
    cases h1 : call fuel s op with
    | none => simp [h1] at hc
    | some s2 =>
      rw [h1] at hc
      obtain ⟨h2, -, -⟩ := call_frame fuel op h h1
      exact ih (Inv_call fuel op h h1) (h2 ▸ hb)
        (call_budget fuel op h hb hn
          (fun e => absurd e (hops op (List.mem_cons_self _ _))) h1)
        (fun o ho => hops o (List.mem_cons_of_mem _ ho)) hc

theorem SizesNonneg_calls [Value V] (fuel : Nat) (ops : List (Call V)) {s s1 : Cache V σ × σ}
    (h : Inv s.1) (hs : SizesNonneg s.1) (hops : ∀ op ∈ ops, op.lenNonneg)
    (hc : calls fuel s ops = some s1) : SizesNonneg s1.1 := by
  induction ops generalizing s with
  | nil =>
    cases hc
    exact hs
  | cons op ops ih =>
    unfold calls at hc
    cases h1 : call fuel s op with
    | none => simp [h1] at hc
    | some s2 =>
      rw [h1] at hc
      exact ih (Inv_call fuel op h h1)
        (SizesNonneg_call fuel op h hs (hops op (List.mem_cons_self _ _)) h1)
        (fun o ho => hops o (List.mem_cons_of_mem _ ho)) hc

/-! ### `Add` followed by `Get` -/

theorem Add_of_unbounded [Value V] (fuel : Nat) (c : Cache V σ) (w : σ) (key : String)
    (value : V) (h : c.maxBytes = 0) :
    Add fuel c w key value = some (Add.insert c key value, w) := by
  unfold Add
  apply loop_of_not_over
  rintro ⟨h1, -⟩
  rw [insert_maxBytes] at h1
  exact h1 h

theorem Get_insert [Value V] {c : Cache V σ} (h : Inv c) (key : String) (value : V)
    (k : String) :
    (Get (Add.insert c key value) k).2 = if k = key then some value else (Get c k).2 := by
  have hi := Inv_insert h key value
  obtain ⟨id, hll⟩ := insert_ll h key value
  by_cases hk : k = key
  · subst hk
    rw [if_pos rfl, Get_eq_some_iff hi, hll]
    exact ⟨_, List.mem_cons_self _ _, rfl, rfl⟩
  · rw [if_neg hk]
    cases hg : (Get c k).2 with
    | none =>
      rw [Get_eq_none_iff h] at hg
      rw [Get_eq_none_iff hi, hll]
      intro hm
      simp only [llKeys, List.map_cons, List.mem_cons] at hm
      rcases hm with hm | hm
      · exact hk hm
      · obtain ⟨x, hx, rfl⟩ := List.mem_map.1 hm
        exact hg (List.mem_map_of_mem (fun e => e.kv.key) (List.mem_filter.1 hx).1)
    | some v =>
      obtain ⟨e, he, h1, h2⟩ := (Get_eq_some_iff h k v).1 hg
      rw [Get_eq_some_iff hi, hll]
      refine ⟨e, List.mem_cons_of_mem _ ?_, h1, h2⟩
      unfold without
      rw [List.mem_filter]
      exact ⟨he, by simpa [h1] using hk⟩

theorem lastAdded_cons (p : String × V) (kvs : List (String × V)) (k : String) :
    lastAdded (p :: kvs) k
      = (lastAdded kvs k).or (if k = p.1 then some p.2 else none) := by
  unfold lastAdded
  rw [List.reverse_cons, List.find?_append]
  cases List.find? (fun p => decide (p.1 = k)) kvs.reverse with
  | some q => simp
  | none =>
    by_cases h : p.1 = k
    · simp [List.find?_cons, h]
    · have h1 : ¬ k = p.1 := fun e => h e.symm
      simp [List.find?_cons, h, h1]

theorem adds_unbounded [Value V] (fuel : Nat) (kvs : List (String × V)) (c : Cache V σ) (w : σ)
    (h : Inv c) (hb : c.maxBytes = 0) (k : String) :
    ∃ s, calls fuel (c, w) (adds kvs) = some s ∧
      (Get s.1 k).2 = (lastAdded kvs k).or (Get c k).2 := by
  induction kvs generalizing c with
  | nil => exact ⟨(c, w), rfl, by simp [lastAdded]⟩
  | cons p kvs ih =>
    obtain ⟨s, h1, h2⟩ := ih (Add.insert c p.1 p.2) (Inv_insert h p.1 p.2)
      ((insert_maxBytes c p.1 p.2).trans hb)
    refine ⟨s, ?_, ?_⟩
    · show (call fuel (c, w) (Call.Add p.1 p.2)).bind _ = some s
      show (Add fuel c w p.1 p.2).bind _ = some s
      rw [Add_of_unbounded fuel c w p.1 p.2 hb]
      exact h1
    · rw [h2, Get_insert h, lastAdded_cons]
      cases lastAdded kvs k with
      | some v => simp
      | none =>
        by_cases hk : k = p.1
        · simp [hk]
        · simp [hk]

theorem lastAdded_eq_none {kvs : List (String × V)} {k : String}
    (h : k ∉ kvs.map Prod.fst) : lastAdded kvs k = none := by
  unfold lastAdded
  rw [Option.map_eq_none', List.find?_eq_none]
  intro p hp hpk
  apply h
  have : p.1 = k := by simpa using hpk
  exact this ▸ List.mem_map_of_mem Prod.fst (List.mem_reverse.1 hp)

theorem loop_evict_one [Value V] (fuel : Nat) {c : Cache V σ} (w : σ) (h : over c)
    (h1 : ¬ over (RemoveOldest c w).1) :
    Add.loop (fuel + 1) c w = some (RemoveOldest c w) := by
  rw [loop_of_over fuel w h, loop_of_not_over fuel _ h1]

/-- Two `Add` calls with distinct keys whose sizes add up to the budget: both
entries stay, the second in front, and the store is exactly full. -/
theorem two_adds [Value V] (maxBytes : Int) (cb : Option (String → V → σ → σ)) (w : σ)
    (A B : String) (vA vB : V) (hAB : A ≠ B)
    (hb : maxBytes
      = (A.utf8ByteSize : Int) + Value.Len vA + ((B.utf8ByteSize : Int) + Value.Len vB))
    (hB : 0 ≤ (B.utf8ByteSize : Int) + Value.Len vB) (fuel : Nat) :
    calls fuel (New maxBytes cb, w) [.Add A vA, .Add B vB]
      = some (⟨[⟨1, ⟨B, vB⟩⟩, ⟨0, ⟨A, vA⟩⟩], maxBytes, maxBytes, [(B, 1), (A, 0)], cb, 2⟩,
        w) := by
  have e1 : Add fuel (New maxBytes cb) w A vA = some (
      ⟨[⟨0, ⟨A, vA⟩⟩], maxBytes, (A.utf8ByteSize : Int) + Value.Len vA, [(A, 0)], cb, 1⟩,
      w) := by
    unfold Add
    have : Add.insert (New maxBytes cb) A vA
        = ⟨[⟨0, ⟨A, vA⟩⟩], maxBytes, (A.utf8ByteSize : Int) + Value.Len vA, [(A, 0)], cb,
          1⟩ := by
      simp [Add.insert, New, GoMap.get, PushFront, GoMap.set, GoMap.delete]
    rw [this]
    apply loop_of_not_over
    simp only [over]
    omega
  have e2 : Add fuel
      ⟨[⟨0, ⟨A, vA⟩⟩], maxBytes, (A.utf8ByteSize : Int) + Value.Len vA, [(A, 0)], cb, 1⟩
      w B vB = some (
      ⟨[⟨1, ⟨B, vB⟩⟩, ⟨0, ⟨A, vA⟩⟩], maxBytes, maxBytes, [(B, 1), (A, 0)], cb, 2⟩, w) := by
    unfold Add
    have : Add.insert (⟨[⟨0, ⟨A, vA⟩⟩], maxBytes, (A.utf8ByteSize : Int) + Value.Len vA,
          [(A, 0)], cb, 1⟩ : Cache V σ) B vB
        = ⟨[⟨1, ⟨B, vB⟩⟩, ⟨0, ⟨A, vA⟩⟩], maxBytes, maxBytes, [(B, 1), (A, 0)], cb, 2⟩ := by
      simp [Add.insert, GoMap.get, PushFront, GoMap.set, GoMap.delete, hAB, hb]
    rw [this]
    apply loop_of_not_over
    simp only [over]
    omega
  simp only [calls, call, e1, e2, Option.bind]

theorem calls_append [Value V] (fuel : Nat) (s : Cache V σ × σ) (ops1 ops2 : List (Call V)) :
    calls fuel s (ops1 ++ ops2) = (calls fuel s ops1).bind (fun s1 => calls fuel s1 ops2) := by
  induction ops1 generalizing s with
  | nil => rfl
  | cons op ops ih =>
    show (call fuel s op).bind _ = ((call fuel s op).bind _).bind _
    cases call fuel s op with
    | none => rfl
    | some s1 => exact ih s1

end lru

/-! ## More on `Get` and on the eviction loop -/

namespace lru

variable {V σ : Type}

/-- A `Get` that reports not-found returns the store it was given. -/
theorem Get_of_none (c : Cache V σ) (key : String) (h : (Get c key).2 = none) :
    Get c key = (c, none) := by
  unfold Get at h ⊢
  cases hel : GoMap.get c.cache key with
  | none => rfl
  | some element =>
    simp only [hel] at h ⊢
    cases he : deref c.ll element with
    | none => rfl
    | some e =>
      simp only [he] at h
      cases h

theorem Get_cache (c : Cache V σ) (key : String) : (Get c key).1.cache = c.cache := by
  unfold Get
  repeat' split
  all_goals rfl

theorem Get_perm [Value V] {c : Cache V σ} (h : Inv c) (key : String) :
    (Get c key).1.ll.Perm c.ll := by
  by_cases hk : key ∈ llKeys c.ll
  · obtain ⟨e, he, rfl⟩ := List.mem_map.1 hk
    rw [Get_hit h he]
    show (e :: without c.ll e.kv.key).Perm c.ll
    rw [← Remove_eq_without h.ids_nodup h.keys_nodup he]
    exact (perm_cons_Remove h.ids_nodup he).symm
  · rw [Get_miss h hk]

/-- A `Get` does not change what a later `Get` finds. -/
theorem Get_Get [Value V] {c : Cache V σ} (h : Inv c) (key k : String) :
    (Get (Get c key).1 k).2 = (Get c k).2 := by
  have hi := Inv_Get h key
  have hp := Get_perm h key
  cases hg : (Get c k).2 with
  | none =>
    rw [Get_eq_none_iff h] at hg
    rw [Get_eq_none_iff hi]
    intro hm
    obtain ⟨e, he, rfl⟩ := List.mem_map.1 hm
    exact hg (List.mem_map_of_mem (fun e => e.kv.key) (hp.mem_iff.1 he))
  | some v =>
    obtain ⟨e, he, h1, h2⟩ := (Get_eq_some_iff h k v).1 hg
    rw [Get_eq_some_iff hi]
    exact ⟨e, hp.mem_iff.2 he, h1, h2⟩

/-- With a negative budget the loop condition holds in every store that
satisfies the invariant and has no entry of negative size: `nbytes` is the
sum of the sizes and so not negative. -/
theorem over_of_negative [Value V] {c : Cache V σ} (h : Inv c) (hs : SizesNonneg c)
    (hb : c.maxBytes < 0) : over c := by
  have h1 := total_nonneg c.ll hs
  rw [← h.bytes] at h1
  constructor
  · omega
  · omega

/-- With a negative budget and no entry of negative size the loop does not
exit, whatever the fuel. -/
theorem loop_diverges [Value V] (fuel : Nat) {c : Cache V σ} (w : σ) (h : Inv c)
    (hs : SizesNonneg c) (hb : c.maxBytes < 0) : Add.loop fuel c w = none := by
  induction fuel generalizing c w with
  | zero =>
    have ho := over_of_negative h hs hb
    unfold over at ho
    simp [Add.loop, ho]
  | succ n ih =>
    rw [loop_of_over n w (over_of_negative h hs hb)]
    apply ih _ (Inv_RemoveOldest h w) (SizesNonneg_RemoveOldest h hs w)
    rw [RemoveOldest_maxBytes]
    exact hb

end lru

/-! ## The LRU store: budget, structure, lookup, eviction order -/

namespace lru

variable {V σ : Type}

/-- C2: after every sequence of `Add`, `Get` and `RemoveOldest` calls that
starts from `New`, the keys of the recency list are pairwise distinct, the
index holds each key once, index and list have the same keys, every index
entry denotes a cell of the list that carries the entry's key, and `nbytes`
is the sum of `len(key) + value.Len()` over the list. For a budget that is
not negative every such sequence completes. -/
theorem structural_invariant [Value V] (maxBytes : Int) (cb : Option (String → V → σ → σ))
    (w : σ) (ops : List (Call V)) :
    (0 ≤ maxBytes → ∃ s, calls ops.length (New maxBytes cb, w) ops = some s) ∧
      ∀ fuel s, calls fuel (New maxBytes cb, w) ops = some s →
        (llKeys s.1.ll).Nodup ∧ (GoMap.keys s.1.cache).Nodup ∧
        (∀ k, k ∈ GoMap.keys s.1.cache ↔ k ∈ llKeys s.1.ll) ∧
        (∀ k id, GoMap.get s.1.cache k = some id →
          ∃ e, deref s.1.ll id = some e ∧ e ∈ s.1.ll ∧ e.kv.key = k) ∧
        s.1.nbytes = total s.1.ll := by
  constructor
  · intro hb
    exact calls_terminates ops.length ops (New maxBytes cb, w) (Inv_New maxBytes cb) hb
      (by simp [New])
  · intro fuel s hs
    have h := Inv_calls fuel ops (Inv_New maxBytes cb) hs
    refine ⟨h.keys_nodup, h.index_nodup, ?_, ?_, h.bytes⟩
    · intro k
      constructor
      · intro hk
        obtain ⟨p, hp, rfl⟩ := List.mem_map.1 hk
        obtain ⟨e, he, -, h2⟩ := (h.index_iff p.1 p.2).1 hp
        exact h2 ▸ List.mem_map_of_mem (fun e => e.kv.key) he
      · intro hk
        obtain ⟨e, he, rfl⟩ := List.mem_map.1 hk
        exact GoMap.mem_keys_of_get (h.index_of_mem he)
    · intro k id hg
      obtain ⟨e, hd, he, -, hk⟩ := h.get_some hg
      exact ⟨e, hd, he, hk⟩

/-- Witness of C2: the store at the end of `TestOnEvicted`. -/
theorem structural_invariant_witness :
    (0 : Int) ≤ 10 ∧
      calls 4 (New 10 (some testCallback), []) (adds testAdds) = some testFinal ∧
      (llKeys testFinal.1.ll).Nodup ∧ (GoMap.keys testFinal.1.cache).Nodup ∧
      testFinal.1.nbytes = total testFinal.1.ll :=
  ⟨by decide, rfl,
    ((structural_invariant 10 (some testCallback) [] (adds testAdds)).2 4 testFinal rfl).1,
    ((structural_invariant 10 (some testCallback) [] (adds testAdds)).2 4 testFinal rfl).2.1,
    ((structural_invariant 10 (some testCallback) [] (adds testAdds)).2 4 testFinal
      rfl).2.2.2.2⟩

/-- C3: on a store created with budget 0 every finite sequence of `Add`
calls completes, whatever the fuel, and afterwards `Get(k)` returns the value
of the last `Add` for `k` with `ok = true`, and not-found exactly when no
`Add` of the sequence had the key `k`. -/
theorem add_then_get [Value V] (cb : Option (String → V → σ → σ)) (w : σ)
    (kvs : List (String × V)) (fuel : Nat) (k : String) :
    (calls fuel (New 0 cb, w) (adds kvs)).map (fun s => (Get s.1 k).2)
        = some (lastAdded kvs k) ∧
      (lastAdded kvs k = none ↔ k ∉ kvs.map Prod.fst) := by
  constructor
  · obtain ⟨s, h1, h2⟩ := adds_unbounded fuel kvs (New 0 cb) w (Inv_New 0 cb) rfl k
    rw [h1, Option.map_some', h2]
    have : (Get (New 0 cb : Cache V σ) k).2 = none := rfl
    rw [this]
    cases lastAdded kvs k <;> rfl
  · constructor
    · intro h hm
      obtain ⟨p, hp, rfl⟩ := List.mem_map.1 hm
      unfold lastAdded at h
      rw [Option.map_eq_none', List.find?_eq_none] at h
      exact h p (List.mem_reverse.2 hp) (by simp)
    · exact lastAdded_eq_none

/-- Witness of C3: `TestCache_Get`; `key1` is found with its value and
`key2`, never added, is not. -/
theorem add_then_get_witness :
    (calls 0 (New 0 (none : Option (String → TString → Unit → Unit)), ())
        (adds [("key1", ⟨"1234"⟩)])).map (fun s => (Get s.1 "key1").2)
      = some (some ⟨"1234"⟩) ∧
    (calls 0 (New 0 (none : Option (String → TString → Unit → Unit)), ())
        (adds [("key1", ⟨"1234"⟩)])).map (fun s => (Get s.1 "key2").2)
      = some none :=
  ⟨(add_then_get none () [("key1", TString.mk "1234")] 0 "key1").1,
    (add_then_get none () [("key1", TString.mk "1234")] 0 "key2").1⟩

/-- C5: on a store created with a callback `f`, after any sequence of `Add`
calls, a further `Add` that returns has removed a suffix `removed` of the
recency list it had after its insert/update half (the least recently used
cells), and the state the callback acts on is the result of calling `f` on
exactly these cells, last cell first, each once with its key and the value
it holds; for a budget that is not negative the `Add` returns. In
`TestOnEvicted` the callback thus collects the keys `key1`, `k2`. -/
theorem eviction_callback [Value V] (maxBytes : Int) (f : String → V → σ → σ) (w : σ)
    (kvs : List (String × V)) (fuel : Nat) (s : Cache V σ × σ)
    (h : calls fuel (New maxBytes (some f), w) (adds kvs) = some s) (key : String)
    (value : V) :
    (0 ≤ maxBytes → ∃ s1, Add (s.1.ll.length + 1) s.1 s.2 key value = some s1) ∧
    (∀ fuel1 s1, Add fuel1 s.1 s.2 key value = some s1 →
      ∃ removed, (Add.insert s.1 key value).ll = s1.1.ll ++ removed ∧
        s1.2 = removed.reverse.foldl (fun w e => f e.kv.key e.kv.value w) s.2) ∧
    (calls 1 (New 10 (some testCallback), []) (adds testAdds)).map Prod.snd
      = some ["key1", "k2"] := by
  have hi := Inv_calls fuel (adds kvs) (Inv_New maxBytes (some f)) h
  obtain ⟨hm, hcb⟩ := calls_frame fuel (adds kvs) (Inv_New maxBytes (some f)) h
  refine ⟨?_, ?_, rfl⟩
  · intro hb
    exact call_terminates _ s (Call.Add key value) hi (hm ▸ hb) (le_refl _)
  · intro fuel1 s1 h1
    obtain ⟨-, -, -, removed, h4, h5⟩ := loop_spec fuel1 (Inv_insert hi key value) h1
    refine ⟨removed, h4, ?_⟩
    rw [h5, insert_OnEvicted, hcb]
    rfl

/-- Witness of C5: the last `Add` of `TestOnEvicted` removes the cell of `k2`. -/
theorem eviction_callback_witness :
    calls 1 (New 10 (some testCallback), [])
        (adds [("key1", ⟨"123456"⟩), ("k2", ⟨"k2"⟩), ("k3", ⟨"k3"⟩)]) = some testThird ∧
      Add 1 testThird.1 testThird.2 "k4" ⟨"k4"⟩ = some testFinal ∧
      ∃ removed, (Add.insert testThird.1 "k4" ⟨"k4"⟩).ll = testFinal.1.ll ++ removed ∧
        testFinal.2
          = removed.reverse.foldl (fun w e => testCallback e.kv.key e.kv.value w)
              testThird.2 :=
  ⟨rfl, rfl,
    (eviction_callback 10 testCallback []
      [("key1", TString.mk "123456"), ("k2", TString.mk "k2"), ("k3", TString.mk "k3")] 1
      testThird
      (show calls 1 (New 10 (some testCallback), [])
          (adds [("key1", TString.mk "123456"), ("k2", TString.mk "k2"),
            ("k3", TString.mk "k3")]) = some testThird from rfl)
      "k4" (TString.mk "k4")).2.1 1 testFinal
      (show Add 1 testThird.1 testThird.2 "k4" (TString.mk "k4") = some testFinal from rfl)⟩

end lru

/-! ## More on Go maps: reading after writing -/

namespace GoMap

variable {α β : Type} [DecidableEq α]

theorem get_delete_other (m : GoMap α β) {a a1 : α} (h : a1 ≠ a) :
    get (delete m a) a1 = get m a1 := by
  induction m with
  | nil => rfl
  | cons p m ih =>
    obtain ⟨k, v⟩ := p
    by_cases hk : k = a
    · subst hk
      have h1 : delete ((k, v) :: m) k = delete m k := by simp [delete]
      have h2 : ¬ k = a1 := fun e => h e.symm
      rw [h1, ih]
      simp [get, h2]
    · have h1 : delete ((k, v) :: m) a = (k, v) :: delete m a := by simp [delete, hk]
      rw [h1]
      simp only [get, ih]

theorem get_set_same (m : GoMap α β) (a : α) (b : β) : get (set m a b) a = some b := by
  simp [set, get]

theorem get_set_other (m : GoMap α β) {a a1 : α} (b : β) (h : a1 ≠ a) :
    get (set m a b) a1 = get m a1 := by
  have h2 : ¬ a = a1 := fun e => h e.symm
  simp only [set, get, h2, if_false]
  exact get_delete_other m h

theorem get_setAll_other (ws : List (α × β)) (m : GoMap α β) {a : α}
    (h : a ∉ ws.map Prod.fst) : get (setAll m ws) a = get m a := by
  induction ws generalizing m with
  | nil => rfl
  | cons w ws ih =>
    simp only [List.map_cons, List.mem_cons, not_or] at h
    show get (setAll (set m w.1 w.2) ws) a = _
    rw [ih _ h.2, get_set_other m w.2 h.1]

theorem get_setAll_mem (ws : List (α × β)) (m : GoMap α β) {a : α}
    (h : a ∈ ws.map Prod.fst) : ∃ b, (a, b) ∈ ws ∧ get (setAll m ws) a = some b := by
  induction ws generalizing m with
  | nil => simp at h
  | cons w ws ih =>
    by_cases h1 : a ∈ ws.map Prod.fst
    · obtain ⟨b, hb, hg⟩ := ih (set m w.1 w.2) h1
      exact ⟨b, List.mem_cons_of_mem _ hb, hg⟩
    · simp only [List.map_cons, List.mem_cons] at h
      rcases h with h | h
      · refine ⟨w.2, ?_, ?_⟩
        · rw [h]
          exact List.mem_cons_self _ _
        · show get (setAll (set m w.1 w.2) ws) a = _
          rw [get_setAll_other ws _ h1, h, get_set_same]
      · exact absurd h h1

end GoMap

/-! ## The hash ring -/

namespace consistenthash

/-! ### Binary search -/

theorem Search.loop_correct (f : Nat → Bool) (n : Nat)
    (hmono : ∀ a b, a ≤ b → b < n → f a = true → f b = true) :
    ∀ fuel i j, i ≤ j → j ≤ n → j - i ≤ fuel → (∀ k, k < i → f k = false) →
      (∀ k, j ≤ k → k < n → f k = true) →
      Search.loop f fuel i j ≤ n ∧ (∀ k, k < Search.loop f fuel i j → f k = false) ∧
        (∀ k, Search.loop f fuel i j ≤ k → k < n → f k = true) := by
  intro fuel
  induction fuel with
  | zero =>
    intro i j hij hjn hf hlo hhi
    have : i = j := by omega
    subst this
    exact ⟨hjn, hlo, hhi⟩
  | succ fuel ih =>
    intro i j hij hjn hf hlo hhi
    unfold Search.loop
    by_cases hlt : i < j
    · rw [if_pos hlt]
      have h1 : i ≤ (i + j) / 2 := by omega
      have h2 : (i + j) / 2 < j := by omega
      cases hfh : f ((i + j) / 2) with
      | false =>
        simp only [hfh, Bool.not_false, if_true]
        apply ih _ _ (by omega) hjn (by omega) _ hhi
        intro k hk
        cases hfk : f k with
        | false => rfl
        | true =>
          have := hmono k ((i + j) / 2) (by omega) (by omega) hfk
          rw [hfh] at this
          cases this
      | true =>
        simp only [hfh, Bool.not_true, Bool.false_eq_true, if_false]
        apply ih _ _ h1 (by omega) (by omega) hlo
        intro k hk hkn
        exact hmono _ k hk hkn hfh
    · rw [if_neg hlt]
      have : i = j := by omega
      subst this
      exact ⟨hjn, hlo, hhi⟩

theorem Search_spec (f : Nat → Bool) (n : Nat)
    (hmono : ∀ a b, a ≤ b → b < n → f a = true → f b = true) :
    Search n f ≤ n ∧ (∀ k, k < Search n f → f k = false) ∧
      (∀ k, Search n f ≤ k → k < n → f k = true) := by
  unfold Search
  apply Search.loop_correct f n hmono n 0 n (Nat.zero_le _) (le_refl _) (by omega)
  · intro k hk
    omega
  · intro k hk hkn
    omega

/-! ### Sorted point lists -/

theorem sorted_getD_le {l : List Int} (hs : l.Sorted (fun a b => a ≤ b)) {a b : Nat}
    (hab : a ≤ b) (hb : b < l.length) : l.getD a 0 ≤ l.getD b 0 := by
  have ha : a < l.length := by omega
  rw [List.getD_eq_getElem l 0 ha, List.getD_eq_getElem l 0 hb]
  rcases Nat.lt_or_eq_of_le hab with h | h
  · exact (List.pairwise_iff_getElem.1 hs) a b ha hb h
  · subst h
    exact le_refl _

theorem getD_mem {l : List Int} {a : Nat} (ha : a < l.length) : l.getD a 0 ∈ l := by
  rw [List.getD_eq_getElem l 0 ha]
  exact List.getElem_mem _

theorem exists_getD_of_mem {l : List Int} {q : Int} (h : q ∈ l) :
    ∃ k, k < l.length ∧ l.getD k 0 = q := by
  obtain ⟨k, hk, rfl⟩ := List.mem_iff_getElem.1 h
  exact ⟨k, hk, List.getD_eq_getElem l 0 hk⟩

theorem Selects_unique {l : List Int} {h p q : Int} (hp : Selects l h p) (hq : Selects l h q) :
    p = q := by
  obtain ⟨hp1, hp2⟩ := hp
  obtain ⟨hq1, hq2⟩ := hq
  rcases hp2 with ⟨a1, a2⟩ | ⟨a1, a2⟩ <;> rcases hq2 with ⟨b1, b2⟩ | ⟨b1, b2⟩
  · exact le_antisymm (a2 q hq1 b1) (b2 p hp1 a1)
  · have := b1 p hp1
    omega
  · have := a1 q hq1
    omega
  · exact le_antisymm (a2 q hq1) (b2 p hp1)

/-- On a ring with an ascending, non-empty point list `Get` returns the node
of the point the key selects. -/
theorem Get_selects {m : Map} (hs : m.keys.Sorted (fun a b => a ≤ b)) (hne : m.keys ≠ [])
    (key : String) :
    ∃ p, Selects m.keys (point m.hash key) p ∧ Get m key = nodeOf m p := by
  have hlen : 0 < m.keys.length := List.length_pos.2 hne
  have hlen0 : ¬ m.keys.length = 0 := by omega
  have hS := Search_spec
    (fun i => decide (m.keys.getD i 0 ≥ point m.hash key)) m.keys.length (by
      intro a b hab hb ha
      simp only [decide_eq_true_eq, ge_iff_le] at ha ⊢
      exact le_trans ha (sorted_getD_le hs hab hb))
  have hG : Get m key = nodeOf m (m.keys.getD
      (Search m.keys.length (fun i => decide (m.keys.getD i 0 ≥ point m.hash key))
        % m.keys.length) 0) := by
    unfold Get
    rw [if_neg hlen0]
  rw [hG]
  generalize Search m.keys.length
    (fun i => decide (m.keys.getD i 0 ≥ point m.hash key)) = idx at hS ⊢
  obtain ⟨h1, h2, h3⟩ := hS
  have h2a : ∀ k, k < idx → m.keys.getD k 0 < point m.hash key := by
    intro k hk
    simpa using h2 k hk
  have h3a : ∀ k, idx ≤ k → k < m.keys.length → point m.hash key ≤ m.keys.getD k 0 := by
    intro k hk hkn
    simpa using h3 k hk hkn
  refine ⟨m.keys.getD (idx % m.keys.length) 0, ?_, rfl⟩
  rcases Nat.lt_or_eq_of_le h1 with hlt | heq
  · rw [Nat.mod_eq_of_lt hlt]
    refine ⟨getD_mem hlt, Or.inl ⟨h3a _ (le_refl _) hlt, ?_⟩⟩
    intro q hq hhq
    obtain ⟨k, hk, rfl⟩ := exists_getD_of_mem hq
    by_cases hki : k < idx
    · have := h2a k hki
      omega
    · exact sorted_getD_le hs (by omega) hk
  · rw [heq, Nat.mod_self]
    refine ⟨getD_mem hlen, Or.inr ⟨?_, ?_⟩⟩
    · intro q hq
      obtain ⟨k, hk, rfl⟩ := exists_getD_of_mem hq
      exact h2a k (by omega)
    · intro q hq
      obtain ⟨k, hk, rfl⟩ := exists_getD_of_mem hq
      exact sorted_getD_le hs (Nat.zero_le _) hk

theorem Get_of_nil {m : Map} (h : m.keys = []) (key : String) : Get m key = "" := by
  unfold Get
  rw [h]
  rfl

/-! ### The smallest point of a list -/

theorem leastPoint_eq_none {l : List Int} : leastPoint l = none ↔ l = [] := by
  cases l with
  | nil => simp [leastPoint]
  | cons p ps =>
    simp only [leastPoint]
    cases leastPoint ps <;> simp

theorem leastPoint_spec {l : List Int} {p : Int} (h : leastPoint l = some p) :
    p ∈ l ∧ ∀ q ∈ l, p ≤ q := by
  induction l generalizing p with
  | nil => simp [leastPoint] at h
  | cons x xs ih =>
    simp only [leastPoint] at h
    cases hx : leastPoint xs with
    | none =>
      rw [hx] at h
      cases h
      have := leastPoint_eq_none.1 hx
      subst this
      simp
    | some q =>
      rw [hx] at h
      cases h
      obtain ⟨h1, h2⟩ := ih hx
      constructor
      · rcases min_choice x q with hm | hm
        · rw [hm]
          exact List.mem_cons_self _ _
        · rw [hm]
          exact List.mem_cons_of_mem _ h1
      · intro r hr
        rcases List.mem_cons.1 hr with hr | hr
        · rw [hr]
          exact min_le_left _ _
        · exact le_trans (min_le_right _ _) (h2 r hr)

/-- The reference lookup returns the node of the point the key selects. -/
theorem reference_selects {m : Map} (hne : m.keys ≠ []) (key : String) :
    ∃ p, Selects m.keys (point m.hash key) p ∧ Get.reference m key = nodeOf m p := by
  unfold Get.reference
  cases hf : leastPoint m.keys with
  | none => exact absurd (leastPoint_eq_none.1 hf) hne
  | some first =>
    obtain ⟨f1, f2⟩ := leastPoint_spec hf
    cases hg : leastPoint (m.keys.filter (fun p => decide (p ≥ point m.hash key))) with
    | none =>
      refine ⟨first, ⟨f1, Or.inr ⟨?_, f2⟩⟩, rfl⟩
      intro q hq
      by_contra hlt
      have : q ∈ m.keys.filter (fun p => decide (p ≥ point m.hash key)) := by
        rw [List.mem_filter]
        exact ⟨hq, by simpa using hlt⟩
      rw [leastPoint_eq_none.1 hg] at this
      cases this
    | some p =>
      obtain ⟨g1, g2⟩ := leastPoint_spec hg
      rw [List.mem_filter] at g1
      refine ⟨p, ⟨g1.1, Or.inl ⟨by simpa using g1.2, ?_⟩⟩, rfl⟩
      intro q hq hhq
      apply g2
      rw [List.mem_filter]
      exact ⟨hq, by simpa using hhq⟩

end consistenthash

/-! ### What `Add` does to the ring -/

namespace consistenthash

theorem setAll_append {α β : Type} [DecidableEq α] (m : GoMap α β) (a b : List (α × β)) :
    GoMap.setAll m (a ++ b) = GoMap.setAll (GoMap.setAll m a) b := by
  unfold GoMap.setAll
  rw [List.foldl_append]

theorem foldl_replica (str : String) (is : List Nat) (m : Map) :
    is.foldl (Add.replica str) m
      = { m with
          keys := m.keys ++ is.map (fun i => point m.hash (str ++ Nat.repr i))
          hashMap := GoMap.setAll m.hashMap
            (is.map (fun i => (point m.hash (str ++ Nat.repr i), str))) } := by
  induction is generalizing m with
  | nil => simp [GoMap.setAll]
  | cons i is ih =>
    rw [List.foldl_cons, ih]
    simp [Add.replica, GoMap.setAll]

theorem writes_cons (hash : Hash) (replicas : Int) (str : String) (ns : List String) :
    writes hash replicas (str :: ns)
      = (List.range replicas.toNat).map (fun i => (point hash (str ++ Nat.repr i), str))
        ++ writes hash replicas ns := by
  simp [writes]

theorem foldl_node (ns : List String) (m : Map) :
    ns.foldl Add.node m
      = { m with
          keys := m.keys ++ (writes m.hash m.replicas ns).map Prod.fst
          hashMap := GoMap.setAll m.hashMap (writes m.hash m.replicas ns) } := by
  induction ns generalizing m with
  | nil => simp [writes, GoMap.setAll]
  | cons str ns ih =>
    rw [List.foldl_cons, ih, writes_cons, setAll_append]
    simp [Add.node, foldl_replica, Function.comp_def]

theorem Add_eq (m : Map) (ns : List String) :
    Add m ns
      = { m with
          keys := sortInts (m.keys ++ (writes m.hash m.replicas ns).map Prod.fst)
          hashMap := GoMap.setAll m.hashMap (writes m.hash m.replicas ns) } := by
  unfold Add
  simp only [foldl_node]

theorem writes_length (hash : Hash) (replicas : Int) (ns : List String) :
    (writes hash replicas ns).length = ns.length * replicas.toNat := by
  induction ns with
  | nil => simp [writes]
  | cons str ns ih =>
    rw [writes_cons, List.length_append, ih, List.length_map, List.length_range,
      List.length_cons]
    ring

theorem writes_node {hash : Hash} {replicas : Int} {ns : List String} {p : Int} {s : String}
    (h : (p, s) ∈ writes hash replicas ns) : s ∈ ns := by
  induction ns with
  | nil => simp [writes] at h
  | cons str ns ih =>
    rw [writes_cons, List.mem_append] at h
    rcases h with h | h
    · obtain ⟨i, -, hi⟩ := List.mem_map.1 h
      cases hi
      exact List.mem_cons_self _ _
    · exact List.mem_cons_of_mem _ (ih h)

theorem Add_keys_perm (m : Map) (ns : List String) :
    (Add m ns).keys.Perm (m.keys ++ (writes m.hash m.replicas ns).map Prod.fst) := by
  rw [Add_eq]
  exact List.perm_insertionSort _ _

theorem Add_keys_sorted (m : Map) (ns : List String) :
    (Add m ns).keys.Sorted (fun a b => a ≤ b) := by
  rw [Add_eq]
  exact List.sorted_insertionSort _ _

theorem Add_keys_length (m : Map) (ns : List String) :
    (Add m ns).keys.length = m.keys.length + ns.length * m.replicas.toNat := by
  rw [(Add_keys_perm m ns).length_eq, List.length_append, List.length_map, writes_length]

theorem Add_hash (m : Map) (ns : List String) : (Add m ns).hash = m.hash := by
  rw [Add_eq]

theorem Add_replicas (m : Map) (ns : List String) : (Add m ns).replicas = m.replicas := by
  rw [Add_eq]

theorem mem_Add_keys {m : Map} {ns : List String} {p : Int} :
    p ∈ (Add m ns).keys ↔ p ∈ m.keys ∨ p ∈ (writes m.hash m.replicas ns).map Prod.fst := by
  rw [(Add_keys_perm m ns).mem_iff, List.mem_append]

/-- A point that `Add(ns...)` writes is mapped to one of the nodes `ns`
afterwards. -/
theorem nodeOf_Add_new {m : Map} {ns : List String} {p : Int}
    (h : p ∈ (writes m.hash m.replicas ns).map Prod.fst) :
    ∃ s, s ∈ ns ∧ GoMap.get (Add m ns).hashMap p = some s := by
  obtain ⟨s, hs, hg⟩ := GoMap.get_setAll_mem _ m.hashMap h
  refine ⟨s, writes_node hs, ?_⟩
  rw [Add_eq]
  exact hg

/-- A point that `Add(ns...)` does not write keeps its entry. -/
theorem get_Add_old {m : Map} {ns : List String} {p : Int}
    (h : p ∉ (writes m.hash m.replicas ns).map Prod.fst) :
    GoMap.get (Add m ns).hashMap p = GoMap.get m.hashMap p := by
  rw [Add_eq]
  exact GoMap.get_setAll_other _ m.hashMap h

theorem RingInv_New (replicas : Int) (fn : Option Hash) : RingInv (New replicas fn) := by
  constructor
  · exact List.sorted_nil
  · intro p hp
    cases hp

theorem RingInv_Add {m : Map} (h : RingInv m) (ns : List String) : RingInv (Add m ns) := by
  refine ⟨Add_keys_sorted m ns, ?_⟩
  intro p hp
  by_cases hw : p ∈ (writes m.hash m.replicas ns).map Prod.fst
  · obtain ⟨s, -, hs⟩ := nodeOf_Add_new hw
    exact ⟨s, hs⟩
  · rw [get_Add_old hw]
    rcases mem_Add_keys.1 hp with h1 | h1
    · exact h.2 p h1
    · exact absurd h1 hw

theorem RingInv_ring (replicas : Int) (fn : Option Hash) (adds : List (List String)) :
    RingInv (ring replicas fn adds) := by
  unfold ring
  have : ∀ m, RingInv m → RingInv (adds.foldl Add m) := by
    induction adds with
    | nil => exact fun m h => h
    | cons ns adds ih => exact fun m h => ih _ (RingInv_Add h ns)
  exact this _ (RingInv_New replicas fn)

theorem ring_replicas (replicas : Int) (fn : Option Hash) (adds : List (List String)) :
    (ring replicas fn adds).replicas = replicas := by
  unfold ring
  have : ∀ m : Map, (adds.foldl Add m).replicas = m.replicas := by
    induction adds with
    | nil => exact fun m => rfl
    | cons ns adds ih => exact fun m => (ih _).trans (Add_replicas m ns)
  exact this _

/-- After `Add(ns...)` a key is mapped to the node it had before or to one of
the nodes `ns`. -/
theorem Get_Add_cases {m : Map} (h : RingInv m) (ns : List String) (key : String) :
    Get (Add m ns) key = Get m key ∨ Get (Add m ns) key ∈ ns := by
  by_cases hne : (Add m ns).keys = []
  · left
    have h0 : m.keys = [] := by
      cases hk : m.keys with
      | nil => rfl
      | cons p ps =>
        have : p ∈ (Add m ns).keys := mem_Add_keys.2 (Or.inl (hk ▸ List.mem_cons_self _ _))
        rw [hne] at this
        cases this
    rw [Get_of_nil hne, Get_of_nil h0]
  · obtain ⟨p, hp, hg⟩ := Get_selects (Add_keys_sorted m ns) hne key
    rw [Add_hash] at hp
    by_cases hw : p ∈ (writes m.hash m.replicas ns).map Prod.fst
    · right
      obtain ⟨s, hs, hgs⟩ := nodeOf_Add_new hw
      rw [hg]
      unfold nodeOf
      rw [hgs]
      exact hs
    · left
      have hpm : p ∈ m.keys := by
        rcases mem_Add_keys.1 hp.1 with h1 | h1
        · exact h1
        · exact absurd h1 hw
      have hsel : Selects m.keys (point m.hash key) p := by
        refine ⟨hpm, ?_⟩
        rcases hp.2 with ⟨a1, a2⟩ | ⟨a1, a2⟩
        · exact Or.inl ⟨a1, fun q hq => a2 q (mem_Add_keys.2 (Or.inl hq))⟩
        · exact Or.inr ⟨fun q hq => a1 q (mem_Add_keys.2 (Or.inl hq)),
            fun q hq => a2 q (mem_Add_keys.2 (Or.inl hq))⟩
      obtain ⟨q, hq, hgq⟩ := Get_selects h.1 (List.ne_nil_of_mem hpm) key
      rw [hg, hgq, Selects_unique hq hsel]
      unfold nodeOf
      rw [get_Add_old hw]

end consistenthash

/-! ## The hash ring: lookup, invariant, remapping -/

namespace consistenthash

/-- C7: on every ring built by `New` and any sequence of `Add` calls,
`Map.Get` (binary search over the point list) agrees with the reference
definition for every key: `""` when the ring has no points, otherwise the
node mapped to the smallest point that is at least `hash(key)`, and the node
mapped to the smallest point of the ring when there is no such point. -/
theorem get_refines_reference (replicas : Int) (fn : Option Hash)
    (adds : List (List String)) (key : String) :
    Get (ring replicas fn adds) key = Get.reference (ring replicas fn adds) key := by
  by_cases hne : (ring replicas fn adds).keys = []
  · rw [Get_of_nil hne]
    unfold Get.reference
    rw [hne]
    rfl
  · obtain ⟨p, hp, hg⟩ := Get_selects (RingInv_ring replicas fn adds).1 hne key
    obtain ⟨q, hq, hr⟩ := reference_selects hne key
    rw [hg, hr, Selects_unique hp hq]

/-- C8 (amended): after every sequence of `Add` calls the point list is
ascending and every point has an entry in the point-to-node map; an `Add`
call with `n` node identifiers lengthens the point list by exactly
`n * max(R, 0)` points, whether or not a node is already present: `n * R`
for a replica count `R >= 0`, none for a negative one. -/
theorem ring_invariant (replicas : Int) (fn : Option Hash) (adds : List (List String))
    (ns : List String) :
    (ring replicas fn adds).keys.Sorted (fun a b => a ≤ b) ∧
      (∀ p ∈ (ring replicas fn adds).keys,
        ∃ s, GoMap.get (ring replicas fn adds).hashMap p = some s) ∧
      (Add (ring replicas fn adds) ns).keys.length
        = (ring replicas fn adds).keys.length + ns.length * replicas.toNat := by
  refine ⟨(RingInv_ring replicas fn adds).1, (RingInv_ring replicas fn adds).2, ?_⟩
  rw [Add_keys_length, ring_replicas]

/-- C8 as stated fails for a negative replica count: on `New(-1, nil)` the
call `Add("a")` leaves the point list empty, while `n * R` is `-1`. -/
theorem ring_invariant_negative_replicas :
    ((Add (ring (-1) none []) ["a"]).keys.length : Int)
      ≠ ((ring (-1) none []).keys.length : Int) + ((["a"] : List String).length : Int) * (-1) := by
  decide

/-- C9 (amended): after `Add(n)` on a ring built by `New` and any sequence of
`Add` calls, every key of `K` whose node differs from the one it had before
is mapped to `n`; so the number of remapped keys is at most the number of
keys of `K` that the ring maps to `n` after the `Add`. -/
theorem remapped_keys_go_to_new_node (replicas : Int) (fn : Option Hash)
    (adds : List (List String)) (n : String) (K : List String) :
    (∀ k ∈ remapped (ring replicas fn adds) [n] K,
        Get (Add (ring replicas fn adds) [n]) k = n) ∧
      (remapped (ring replicas fn adds) [n] K).length
        ≤ (K.filter (fun k => decide (Get (Add (ring replicas fn adds) [n]) k = n))).length := by
  have hall : ∀ k, Get (Add (ring replicas fn adds) [n]) k ≠ Get (ring replicas fn adds) k →
      Get (Add (ring replicas fn adds) [n]) k = n := by
    intro k hk
    rcases Get_Add_cases (RingInv_ring replicas fn adds) [n] k with h | h
    · exact absurd h hk
    · simpa using h
  constructor
  · intro k hk
    unfold remapped at hk
    rw [List.mem_filter] at hk
    exact hall k (by simpa using hk.2)
  · unfold remapped
    rw [← List.countP_eq_length_filter, ← List.countP_eq_length_filter]
    apply List.countP_mono_left
    intro k _ hk
    simp only [decide_eq_true_eq] at hk ⊢
    exact hall k hk

/-- Witness of C9: in the ring with the node `a` at point 100, adding the node
`b` at point 50 remaps the key `k` (point 10), and `k` is mapped to `b`. -/
theorem remapped_keys_go_to_new_node_witness :
    "k" ∈ remapped (ring 1 (some smallHash) [["a"]]) ["b"] ["k"] ∧
      Get (Add (ring 1 (some smallHash) [["a"]]) ["b"]) "k" = "b" :=
  ⟨by decide,
    (remapped_keys_go_to_new_node 1 (some smallHash) [["a"]] "b" ["k"]).1 "k" (by decide)⟩

/-- C9 as stated fails: with one replica, the node `a` at point 100 and every
key at point 10, adding the node `b` at point 50 remaps the only key of
`K = ["k"]`, which is more than half of `K`. -/
theorem bounded_remapping_fails :
    ¬ (2 * (remapped (ring 1 (some smallHash) [["a"]]) ["b"] ["k"]).length
        ≤ (["k"] : List String).length) := by
  decide

end consistenthash

/-! ## An entry that fits the budget survives its own `Add` -/

namespace lru

variable {V σ : Type}

/-- The loop does not remove the front cell when that cell alone fits the
budget. -/
theorem loop_keeps_head [Value V] (fuel : Nat) {c c1 : Cache V σ} {w w1 : σ} (h : Inv c)
    {e : Element V} {rest : List (Element V)} (hll : c.ll = e :: rest)
    (hfit : c.maxBytes = 0 ∨ e.kv.size ≤ c.maxBytes)
    (hl : Add.loop fuel c w = some (c1, w1)) : ∃ rest1, c1.ll = e :: rest1 := by
  induction fuel generalizing c w rest with
  | zero =>
    unfold Add.loop at hl
    split at hl
    · cases hl
    · cases hl
      exact ⟨rest, hll⟩
  | succ n ih =>
    by_cases ho : over c
    · rw [loop_of_over n w ho] at hl
      have hrest : rest ≠ [] := by
        intro hnil
        obtain ⟨h1, h2⟩ := ho
        rw [h.bytes, hll, hnil] at h2
        simp only [total, List.map_cons, List.map_nil, List.sum_cons, List.sum_nil,
          add_zero] at h2
        rcases hfit with h3 | h3
        · exact h1 h3
        · omega
      apply ih (Inv_RemoveOldest h w) _ _ hl
      · exact rest.dropLast
      · rw [RemoveOldest_ll h, hll]
        exact List.dropLast_cons_of_ne_nil hrest
      · rw [RemoveOldest_maxBytes]
        exact hfit
    · rw [loop_of_not_over _ w ho] at hl
      cases hl
      exact ⟨rest, hll⟩

/-- An `Add` whose entry fits the budget (or on an unbounded store) returns,
given one unit of fuel per cell, and `Get` then finds the value. -/
theorem Add_keeps [Value V] (fuel : Nat) {c : Cache V σ} (w : σ) (h : Inv c) (key : String)
    (value : V)
    (hv : 0 ≤ Value.Len value)
    (hfit : c.maxBytes = 0 ∨ (key.utf8ByteSize : Int) + (Value.Len value : Int) ≤ c.maxBytes)
    (hf : c.ll.length + 1 ≤ fuel) :
    ∃ s, Add fuel c w key value = some s ∧ Inv s.1 ∧ s.1.maxBytes = c.maxBytes ∧
      (Get s.1 key).2 = some value := by
  have hi := Inv_insert h key value
  have hb : 0 ≤ (Add.insert c key value).maxBytes := by
    rw [insert_maxBytes]
    rcases hfit with h1 | h1
    · omega
    · omega
  obtain ⟨s, hs⟩ := loop_terminates fuel w hi hb
    (le_trans (insert_ll_length h key value) hf)
  obtain ⟨id, hll⟩ := insert_ll h key value
  have hs1 : Add.loop fuel (Add.insert c key value) w = some (s.1, s.2) := hs
  obtain ⟨rest1, hr⟩ := loop_keeps_head fuel hi hll (by
    rw [insert_maxBytes]
    exact hfit) hs1
  have hi1 := Inv_loop fuel hi hs1
  refine ⟨s, hs, hi1, ?_, ?_⟩
  · rw [(loop_spec fuel hi hs1).1, insert_maxBytes]
  · rw [Get_eq_some_iff hi1, hr]
    exact ⟨_, List.mem_cons_self _ _, rfl, rfl⟩

end lru

/-! ## The cache group -/

namespace geecache

theorem cache.get_miss {c : cache} (hv : c.Valid) {key : String}
    (hm : (cache.get c key).2 = none) : (cache.get c key).1 = c := by
  unfold cache.get at hm ⊢
  unfold cache.Valid at hv
  cases hl : c.lru with
  | none => simp [hl]
  | some l =>
    rw [hl] at hv
    simp only [hl] at hm ⊢
    cases hg : (lru.Get l key).2 with
    | some v =>
      rw [hg] at hm
      cases hm
    | none =>
      have := lru.Get_miss hv.1 ((lru.Get_eq_none_iff hv.1 key).1 hg)
      simp only [this]
      cases c
      cases hl
      rfl

theorem cache.get_of_lru {l : lru.Cache ByteView Unit} {cacheBytes : Int} {key : String}
    {v : ByteView} (h : (lru.Get l key).2 = some v) :
    (cache.get { lru := some l, cacheBytes := cacheBytes } key).2 = some v := by
  simp [cache.get, h]

theorem cache.add_spec (fuel : Nat) {c : cache} (hv : c.Valid) (key : String) (v : ByteView)
    (hfit : c.cacheBytes = 0 ∨ (key.utf8ByteSize : Int) + (v.b.length : Int) ≤ c.cacheBytes)
    (hf : c.len + 1 ≤ fuel) :
    ∃ c1, cache.add fuel c key v = some c1 ∧ c1.Valid ∧ c1.cacheBytes = c.cacheBytes ∧
      (cache.get c1 key).2 = some v := by
  unfold cache.Valid at hv
  unfold cache.len at hf
  cases hl : c.lru with
  | none =>
    rw [hl] at hf
    obtain ⟨s, h1, h2, h3, h4⟩ := lru.Add_keeps fuel ()
      (lru.Inv_New c.cacheBytes (none : Option (String → ByteView → Unit → Unit))) key v
      (Int.natCast_nonneg _) hfit (by simpa [lru.New] using hf)
    refine ⟨{ c with lru := some s.1 }, ?_, ?_, rfl, cache.get_of_lru h4⟩
    · simp [cache.add, hl, h1]
    · exact ⟨h2, h3⟩
  | some l =>
    rw [hl] at hv hf
    obtain ⟨s, h1, h2, h3, h4⟩ := lru.Add_keeps fuel () hv.1 key v (Int.natCast_nonneg _)
      (hv.2 ▸ hfit) hf
    refine ⟨{ c with lru := some s.1 }, ?_, ?_, rfl, cache.get_of_lru h4⟩
    · simp [cache.add, hl, h1]
    · exact ⟨h2, h3.trans hv.2⟩

end geecache

/-! ### The state of the local shard stays valid -/

namespace geecache

theorem cache.Valid_get {c : cache} (hv : c.Valid) (key : String) :
    (cache.get c key).1.Valid := by
  unfold cache.get
  unfold cache.Valid at hv
  cases hl : c.lru with
  | none =>
    simp only
    unfold cache.Valid
    rw [hl]
    trivial
  | some l =>
    rw [hl] at hv
    have h1 : (cache.mk (some (lru.Get l key).1) c.cacheBytes).Valid :=
      ⟨lru.Inv_Get hv.1 key, (lru.Get_maxBytes l key).trans hv.2⟩
    simp only
    split <;> exact h1

theorem cache.Valid_add (fuel : Nat) {c c1 : cache} (hv : c.Valid) {key : String}
    {v : ByteView} (h : cache.add fuel c key v = some c1) : c1.Valid := by
  unfold cache.add at h
  unfold cache.Valid at hv
  have key_step : ∀ l : lru.Cache ByteView Unit, lru.Inv l → l.maxBytes = c.cacheBytes →
      (lru.Add fuel l () key v).map (fun r => { c with lru := some r.1 }) = some c1 →
      c1.Valid := by
    intro l hi hm hr
    cases ha : lru.Add fuel l () key v with
    | none =>
      rw [ha] at hr
      cases hr
    | some r =>
      rw [ha] at hr
      cases hr
      have hloop : lru.Add.loop fuel (lru.Add.insert l key v) () = some (r.1, r.2) := ha
      exact ⟨lru.Inv_loop fuel (lru.Inv_insert hi key v) hloop,
        ((lru.loop_spec fuel (lru.Inv_insert hi key v) hloop).1.trans
          (lru.insert_maxBytes l key v)).trans hm⟩
  cases hl : c.lru with
  | none =>
    rw [hl] at h
    exact key_step _ (lru.Inv_New _ _) rfl h
  | some l =>
    rw [hl] at h hv
    exact key_step l hv.1 hv.2 h

theorem Group.Valid_getLocally (fuel : Nat) {g g1 : Group} (hv : g.mainCache.Valid)
    {key : String} (h : (Group.getLocally fuel g key).group = some g1) :
    g1.mainCache.Valid := by
  unfold Group.getLocally at h
  split at h
  · cases h
  · split at h
    · cases h
      exact hv
    · simp only at h
      split at h
      · cases h
      · rename_i g2 hp
        cases h
        unfold Group.populateCache at hp
        cases ha : cache.add fuel g.mainCache key _ with
        | none =>
          rw [ha] at hp
          cases hp
        | some c1 =>
          rw [ha] at hp
          cases hp
          exact cache.Valid_add fuel hv ha

theorem Run.group_map (r : Run) (k : List Event → List Event) :
    Run.group (match r with
      | .returns (x, g1, evs) => .returns (x, g1, k evs)
      | .panics msg => .panics msg
      | .outOfFuel => .outOfFuel) = r.group := by
  cases r with
  | returns a =>
    obtain ⟨x, g1, evs⟩ := a
    rfl
  | panics msg => rfl
  | outOfFuel => rfl

theorem Group.Valid_fn (fuel : Nat) {g g1 : Group} (hv : g.mainCache.Valid) {key : String}
    (h : (Group.load.fn fuel g key).group = some g1) : g1.mainCache.Valid := by
  unfold Group.load.fn at h
  simp only at h
  split at h
  · rw [Run.group_map _ (fun evs => [] ++ evs)] at h
    exact Group.Valid_getLocally fuel hv h
  · split at h
    · rw [Run.group_map _ (fun evs => [Event.pickPeer key] ++ evs)] at h
      exact Group.Valid_getLocally fuel hv h
    · split at h
      · cases h
      · cases h
      · split at h
        · cases h
          exact hv
        · rw [Run.group_map _
            (fun evs => [Event.pickPeer key, Event.peerGet g.name key] ++ evs)] at h
          exact Group.Valid_getLocally fuel hv h

theorem Group.Valid_load (fuel : Nat) {g g1 : Group} (hv : g.mainCache.Valid) {key : String}
    (h : (Group.load fuel g key).group = some g1) : g1.mainCache.Valid := by
  unfold Group.load singleflight.Do at h
  cases hfn : Group.load.fn fuel g key with
  | returns a =>
    obtain ⟨r, g2, evs⟩ := a
    have h2 : (Group.load.fn fuel g key).group = some g2 := by rw [hfn]; rfl
    simp only [hfn] at h
    have : g1 = g2 := by
      split at h <;> (cases h; rfl)
    rw [this]
    exact Group.Valid_fn fuel hv h2
  | panics msg =>
    simp only [hfn] at h
    cases h
  | outOfFuel =>
    simp only [hfn] at h
    cases h

/-- The validity of the local shard is an invariant of the group: it holds
for a new group and `Get` preserves it. -/
theorem Group.Valid_Get (fuel : Nat) {g g1 : Group} (hv : g.mainCache.Valid) {key : String}
    (h : (Group.Get fuel g key).group = some g1) : g1.mainCache.Valid := by
  unfold Group.Get at h
  split at h
  · cases h
    exact hv
  · split at h
    · cases h
      exact cache.Valid_get hv key
    · have hv1 : (Group.mk g.name g.getter (cache.get g.mainCache key).1 g.peers).mainCache.Valid :=
        cache.Valid_get hv key
      rw [Run.group_map _ (fun evs => Event.cacheGet key :: evs)] at h
      exact Group.Valid_load fuel hv1 h

theorem Valid_NewGroup {name : String} {cacheBytes : Int} {getter : Option Getter} {g : Group}
    (h : NewGroup name cacheBytes getter = .returns g) : g.mainCache.Valid := by
  unfold NewGroup at h
  split at h
  · cases h
  · cases h
    trivial

end geecache

/-! ## `Group.Get` on a local miss without peers -/

namespace geecache

/-- C10 (amended): for a group without peer picker whose getter is a
`GetterFunc`, a non-empty key that the local shard does not hold and a getter
that succeeds on the key with bytes `b`, when the budget `cacheBytes` is 0 or
at least `len(key) + len(b)`: `Get` returns (one loop iteration per entry of
the shard is enough), it invokes the getter exactly once, returns a
`ByteView` with the bytes `b` and a nil error, afterwards `mainCache.get(key)`
hits with that value, and a second `Get` answers from the shard without
invoking the getter. -/
theorem get_local_miss (fuel : Nat) (g : Group) (f : String → Fetched) (key : String)
    (b : List UInt8) (hg : g.getter = .GetterFunc f) (hp : g.peers = none)
    (hv : g.mainCache.Valid) (hk : key ≠ "") (hmiss : (cache.get g.mainCache key).2 = none)
    (hf : f key = (b, none))
    (hfit : g.mainCache.cacheBytes = 0 ∨
      (key.utf8ByteSize : Int) + (b.length : Int) ≤ g.mainCache.cacheBytes)
    (hfuel : g.mainCache.len + 1 ≤ fuel) :
    (Group.Get fuel g key).returned
        = some ({ value := { b := b }, err := none },
            [.cacheGet key, .loaderDo key, .getter key, .cacheAdd key]) ∧
      (Group.Get fuel g key).cached key = some (some { b := b }) ∧
      (Group.Get fuel g key).again fuel key
        = some ({ value := { b := b }, err := none }, [.cacheGet key]) := by
  obtain ⟨c1, h1, -, -, h4⟩ := cache.add_spec fuel hv key { b := b } hfit hfuel
  have hrun : Group.Get fuel g key
      = .returns ({ value := { b := b }, err := none }, { g with mainCache := c1 },
          [.cacheGet key, .loaderDo key, .getter key, .cacheAdd key]) := by
    unfold Group.Get
    rw [if_neg hk]
    simp only [hmiss, cache.get_miss hv hmiss]
    simp [Group.load, singleflight.Do, Group.load.fn, hp, Group.getLocally, hg, hf,
      Group.populateCache, cloneBytes, h1]
  rw [hrun]
  refine ⟨rfl, ?_, ?_⟩
  · simp [Run.cached, Run.group, h4]
  · simp [Run.again, Run.group, Group.Get, hk, h4, Run.returned]

/-- Witness of C10: a fresh group with budget 4, the key `k` and a getter that
returns three bytes. -/
theorem get_local_miss_witness :
    ((demoGroup 4).mainCache.cacheBytes = 0 ∨
        (("k" : String).utf8ByteSize : Int) + (([1, 2, 3] : List UInt8).length : Int)
          ≤ (demoGroup 4).mainCache.cacheBytes) ∧
      (Group.Get 1 (demoGroup 4) "k").returned
        = some ({ value := { b := [1, 2, 3] }, err := none },
            [.cacheGet "k", .loaderDo "k", .getter "k", .cacheAdd "k"]) ∧
      (Group.Get 1 (demoGroup 4) "k").cached "k" = some (some { b := [1, 2, 3] }) ∧
      (Group.Get 1 (demoGroup 4) "k").again 1 "k"
        = some ({ value := { b := [1, 2, 3] }, err := none }, [.cacheGet "k"]) :=
  ⟨by decide,
    get_local_miss 1 (demoGroup 4) (fun _ => ([1, 2, 3], none)) "k" [1, 2, 3] rfl rfl trivial
      (by decide) (by decide) rfl (by decide) (by decide)⟩

/-- C10 as stated fails for a budget below the size of the entry: with
`cacheBytes = 1` the entry `k` (4 bytes) is evicted by the `Add` that inserts
it, so `mainCache.get("k")` misses after the `Get` and a second `Get` invokes
the getter again. -/
theorem get_local_miss_small_budget :
    (Group.Get 1 (demoGroup 1) "k").returned
        = some ({ value := { b := [1, 2, 3] }, err := none },
            [.cacheGet "k", .loaderDo "k", .getter "k", .cacheAdd "k"]) ∧
      (Group.Get 1 (demoGroup 1) "k").cached "k" = some none ∧
      (Group.Get 1 (demoGroup 1) "k").again 1 "k"
        = some ({ value := { b := [1, 2, 3] }, err := none },
            [.cacheGet "k", .loaderDo "k", .getter "k", .cacheAdd "k"]) := by
  decide

end geecache

/-! ## The routes of `Group.Get` -/

namespace geecache

/-- A `cache.get` that misses returns the shard it was given. -/
theorem cache.get_fst_of_none (c : cache) (key : String)
    (h : (cache.get c key).2 = none) : (cache.get c key).1 = c := by
  unfold cache.get at h ⊢
  cases hl : c.lru with
  | none => simp [hl]
  | some l =>
    simp only [hl] at h ⊢
    cases hg : (lru.Get l key).2 with
    | some v =>
      rw [hg] at h
      cases h
    | none =>
      have := lru.Get_of_none l key hg
      simp only [this]
      cases c
      cases hl
      rfl

/-- An error of `getLocally` comes with the empty `ByteView`. -/
theorem Group.getLocally_error (fuel : Nat) (g : Group) (key : String) {r : Result}
    {g1 : Group} {evs : List Event} {err : String}
    (h : Group.getLocally fuel g key = .returns (r, g1, evs)) (he : r.err = some err) :
    r.value = { b := [] } := by
  unfold Group.getLocally at h
  split at h
  · cases h
  · split at h
    · cases h
      rfl
    · simp only at h
      split at h
      · cases h
      · cases h
        cases he

/-- On a local route the function literal of `load` is `getLocally` after
the calls of the route. -/
theorem Group.fn_of_localRoute (fuel : Nat) (g : Group) (key : String) {evs : List Event}
    (h : Group.localRoute g key = some evs) :
    Group.load.fn fuel g key = Run.after evs (Group.getLocally fuel g key) := by
  unfold Group.localRoute at h
  unfold Group.load.fn
  cases hp : g.peers with
  | none =>
    rw [hp] at h
    cases h
    simp only
    cases Group.getLocally fuel g key <;> rfl
  | some picker =>
    rw [hp] at h
    simp only at h ⊢
    cases hk : picker key with
    | mk peer ok =>
      rw [hk] at h
      cases ok with
      | false =>
        simp only at h
        cases h
        simp only
        cases Group.getLocally fuel g key <;> rfl
      | true =>
        cases peer with
        | none => simp at h
        | some p =>
          simp only at h
          cases hf : p g.name key with
          | mk bytes err =>
            rw [hf] at h
            cases err with
            | none => simp at h
            | some e =>
              simp only at h
              cases h
              simp only [Group.getFromPeer, hf]
              cases Group.getLocally fuel g key <;> rfl

/-- A `Get` of a non-empty key that misses the shard and whose load takes a
local route is `getLocally` after the shard lookup, the entry into the call
coalescer and the calls of the route. -/
theorem Group.Get_of_localRoute (fuel : Nat) (g : Group) (key : String) {evs : List Event}
    (hk : key ≠ "") (hmiss : (cache.get g.mainCache key).2 = none)
    (h : Group.localRoute g key = some evs) :
    Group.Get fuel g key
      = Run.after (.cacheGet key :: .loaderDo key :: evs) (Group.getLocally fuel g key) := by
  have hg : ({ g with mainCache := (cache.get g.mainCache key).1 } : Group) = g := by
    rw [cache.get_fst_of_none g.mainCache key hmiss]
  unfold Group.Get
  rw [if_neg hk]
  simp only [hmiss, hg]
  unfold Group.load singleflight.Do
  rw [Group.fn_of_localRoute fuel g key h]
  cases hl : Group.getLocally fuel g key with
  | panics msg => rfl
  | outOfFuel => rfl
  | returns a =>
    obtain ⟨r, g1, e⟩ := a
    simp only [Run.after]
    cases hr : r.err with
    | none =>
      simp only
      cases r
      cases hr
      rfl
    | some err =>
      have hv := Group.getLocally_error fuel g key hl hr
      simp only
      cases r
      cases hr
      cases hv
      rfl

/-- A `Get` of a non-empty key that misses the shard and is answered by a
peer returns the peer's bytes and leaves the group as it is. -/
theorem Group.Get_of_peer (fuel : Nat) (g : Group) (key : String) {picker : PeerPicker}
    {p : PeerGetter} {b : List UInt8} (hk : key ≠ "")
    (hmiss : (cache.get g.mainCache key).2 = none) (hp : g.peers = some picker)
    (hpick : picker key = (some p, true)) (hget : p g.name key = (b, none)) :
    Group.Get fuel g key
      = .returns ({ value := { b := b }, err := none }, g,
          [.cacheGet key, .loaderDo key, .pickPeer key, .peerGet g.name key]) := by
  have hg : ({ g with mainCache := (cache.get g.mainCache key).1 } : Group) = g := by
    rw [cache.get_fst_of_none g.mainCache key hmiss]
  unfold Group.Get
  rw [if_neg hk]
  simp only [hmiss, hg]
  simp [Group.load, singleflight.Do, Group.load.fn, hp, hpick, Group.getFromPeer, hget,
    cloneBytes]

/-- A getter of another type than `GetterFunc` makes every load that takes a
local route panic. -/
theorem Group.Get_of_other (fuel : Nat) (g : Group) (key : String) {evs : List Event}
    {impl : String → Fetched} (hk : key ≠ "") (hmiss : (cache.get g.mainCache key).2 = none)
    (h : Group.localRoute g key = some evs) (hg : g.getter = .other impl) :
    (Group.Get fuel g key).panicked = true := by
  rw [Group.Get_of_localRoute fuel g key hk hmiss h]
  simp [Group.getLocally, hg, Run.after, Run.panicked]

theorem cache.get_entries_perm {c : cache} (hv : c.Valid) (key : String) :
    (cache.entries (cache.get c key).1).Perm (cache.entries c) := by
  unfold cache.Valid at hv
  cases hl : c.lru with
  | none =>
    have h1 : (cache.get c key).1 = c := by
      unfold cache.get
      simp only [hl]
    rw [h1]
  | some l =>
    rw [hl] at hv
    have h1 : (cache.get c key).1 = { c with lru := some (lru.Get l key).1 } := by
      unfold cache.get
      simp only [hl]
      split <;> rfl
    rw [h1]
    unfold cache.entries
    simp only [hl]
    exact (lru.Get_perm hv.1 key).map (fun e => (e.kv.key, e.kv.value))

theorem cache.get_get {c : cache} (hv : c.Valid) (key k : String) :
    (cache.get (cache.get c key).1 k).2 = (cache.get c k).2 := by
  unfold cache.Valid at hv
  cases hl : c.lru with
  | none => simp [cache.get, hl]
  | some l =>
    rw [hl] at hv
    have h1 : (cache.get c key).1 = { c with lru := some (lru.Get l key).1 } := by
      unfold cache.get
      simp only [hl]
      split <;> rfl
    have h2 := lru.Get_Get hv.1 key k
    rw [h1]
    unfold cache.get
    simp only [hl, h2]
    cases (lru.Get l k).2 <;> rfl

theorem SizesNonneg_ByteView {σ : Type} (c : lru.Cache ByteView σ) : lru.SizesNonneg c := by
  intro e _
  have h1 : (0 : Int) ≤ (e.kv.value.b.length : Int) := Int.natCast_nonneg _
  have h2 : (0 : Int) ≤ (e.kv.key.utf8ByteSize : Int) := Int.natCast_nonneg _
  show 0 ≤ (e.kv.key.utf8ByteSize : Int) + (e.kv.value.b.length : Int)
  omega

/-- With a budget that is not negative `cache.add` returns, given one loop
iteration per entry of the shard and one more. -/
theorem cache.add_terminates (fuel : Nat) {c : cache} (hv : c.Valid) (key : String)
    (v : ByteView) (hb : 0 ≤ c.cacheBytes) (hf : c.len + 1 ≤ fuel) :
    ∃ c1, cache.add fuel c key v = some c1 := by
  unfold cache.Valid at hv
  unfold cache.len at hf
  have step : ∀ l : lru.Cache ByteView Unit, lru.Inv l → l.maxBytes = c.cacheBytes →
      l.ll.length + 1 ≤ fuel → ∃ r, lru.Add fuel l () key v = some r := by
    intro l hi hm hl
    apply lru.loop_terminates fuel () (lru.Inv_insert hi key v)
    · rw [lru.insert_maxBytes, hm]
      exact hb
    · exact le_trans (lru.insert_ll_length hi key v) hl
  cases hl : c.lru with
  | none =>
    rw [hl] at hf
    obtain ⟨r, hr⟩ := step (lru.New c.cacheBytes none) (lru.Inv_New _ _) rfl
      (by simpa [lru.New] using hf)
    exact ⟨{ c with lru := some r.1 }, by simp [cache.add, hl, hr]⟩
  | some l =>
    rw [hl] at hv hf
    obtain ⟨r, hr⟩ := step l hv.1 hv.2 hf
    exact ⟨{ c with lru := some r.1 }, by simp [cache.add, hl, hr]⟩

/-- With a negative budget `cache.add` does not return, whatever the fuel. -/
theorem cache.add_diverges (fuel : Nat) {c : cache} (hv : c.Valid) (key : String)
    (v : ByteView) (hb : c.cacheBytes < 0) : cache.add fuel c key v = none := by
  unfold cache.Valid at hv
  have step : ∀ l : lru.Cache ByteView Unit, lru.Inv l → l.maxBytes = c.cacheBytes →
      lru.Add fuel l () key v = none := by
    intro l hi hm
    apply lru.loop_diverges fuel () (lru.Inv_insert hi key v) (SizesNonneg_ByteView _)
    rw [lru.insert_maxBytes, hm]
    exact hb
  cases hl : c.lru with
  | none => simp [cache.add, hl, step (lru.New c.cacheBytes none) (lru.Inv_New _ _) rfl]
  | some l =>
    rw [hl] at hv
    simp [cache.add, hl, step l hv.1 hv.2]

/-- With a negative budget a `Get` whose load takes a local route to a getter
that succeeds does not return, whatever the fuel. -/
theorem Group.Get_diverges (fuel : Nat) (g : Group) (key : String) {evs : List Event}
    {f : String → Fetched} {b : List UInt8} (hk : key ≠ "")
    (hmiss : (cache.get g.mainCache key).2 = none) (h : Group.localRoute g key = some evs)
    (hg : g.getter = .GetterFunc f) (hf : f key = (b, none)) (hv : g.mainCache.Valid)
    (hb : g.mainCache.cacheBytes < 0) : (Group.Get fuel g key).returned = none := by
  rw [Group.Get_of_localRoute fuel g key hk hmiss h]
  simp [Group.getLocally, hg, hf, Group.populateCache,
    cache.add_diverges fuel hv key _ hb, Run.after, Run.returned]

end geecache

/-! ## `Group.Get`: peers, errors, the empty key, local hits -/

namespace geecache

/-- C11: for a non-empty key that the local shard does not hold, when the
bound peer picker returns a peer with `ok = true` and that peer's `Get`
succeeds with bytes `b`, `Group.Get` returns a `ByteView` with the bytes `b`
and a nil error; it calls the shard lookup, the call coalescer, the picker
and the peer and not the getter, and it leaves the group, and with it the
local shard, exactly as it was: the shard still has no entry for the key. -/
theorem get_from_peer (fuel : Nat) (g : Group) (key : String) (picker : PeerPicker)
    (p : PeerGetter) (b : List UInt8) (hk : key ≠ "")
    (hmiss : (cache.get g.mainCache key).2 = none) (hp : g.peers = some picker)
    (hpick : picker key = (some p, true)) (hget : p g.name key = (b, none)) :
    (Group.Get fuel g key).returned
        = some ({ value := { b := b }, err := none },
            [.cacheGet key, .loaderDo key, .pickPeer key, .peerGet g.name key]) ∧
      (Group.Get fuel g key).group = some g ∧
      (Group.Get fuel g key).cached key = some none := by
  rw [Group.Get_of_peer fuel g key hk hmiss hp hpick hget]
  exact ⟨rfl, rfl, by simp [Run.cached, Run.group, hmiss]⟩

/-- Witness of C11: a group whose picker hands out a peer that answers with
the byte `7`. -/
theorem get_from_peer_witness :
    (Group.Get 0 (peerGroup upPeer demoGetter) "k").returned
        = some ({ value := { b := [7] }, err := none },
            [.cacheGet "k", .loaderDo "k", .pickPeer "k", .peerGet "demo" "k"]) ∧
      (Group.Get 0 (peerGroup upPeer demoGetter) "k").cached "k" = some none :=
  ⟨(get_from_peer 0 (peerGroup upPeer demoGetter) "k" (fun _ => (some upPeer, true)) upPeer
      [7] (by decide) rfl rfl rfl rfl).1,
    (get_from_peer 0 (peerGroup upPeer demoGetter) "k" (fun _ => (some upPeer, true)) upPeer
      [7] (by decide) rfl rfl rfl rfl).2.2⟩

/-- C12 (amended): for a non-empty key that the local shard does not hold,
when the peer picker returns a peer and that peer's `Get` returns an error,
`Group.Get` does not return the peer's error: it ends exactly as
`getLocally(key)` does, after the calls to shard, coalescer, picker and peer.
For a getter that is a `GetterFunc` and a budget `cacheBytes >= 0` it
returns (one loop iteration per entry of the shard and one more are enough):
the getter was invoked exactly once, its error is the error returned, with
the empty `ByteView` and the group unchanged, and on success its bytes are
the value returned and the shard afterwards is the one `cache.add` produced
from that value. -/
theorem peer_failure_falls_back (fuel : Nat) (g : Group) (key : String) (picker : PeerPicker)
    (p : PeerGetter) (bytes : List UInt8) (err : String) (hk : key ≠ "")
    (hmiss : (cache.get g.mainCache key).2 = none) (hp : g.peers = some picker)
    (hpick : picker key = (some p, true)) (hget : p g.name key = (bytes, some err)) :
    Group.Get fuel g key
        = Run.after [.cacheGet key, .loaderDo key, .pickPeer key, .peerGet g.name key]
            (Group.getLocally fuel g key) ∧
      ∀ f, g.getter = .GetterFunc f → g.mainCache.Valid → 0 ≤ g.mainCache.cacheBytes →
        g.mainCache.len + 1 ≤ fuel →
        ∃ r g1 evs, Group.Get fuel g key = .returns (r, g1, evs) ∧
          evs.count (.getter key) = 1 ∧ r.err = (f key).2 ∧
          ((f key).2 = none →
            r.value = { b := cloneBytes (f key).1 } ∧
              cache.add fuel g.mainCache key r.value = some g1.mainCache) ∧
          ((f key).2 ≠ none → r.value = { b := [] } ∧ g1 = g) := by
  have hroute : Group.localRoute g key = some [.pickPeer key, .peerGet g.name key] := by
    simp [Group.localRoute, hp, hpick, hget]
  have heq := Group.Get_of_localRoute fuel g key hk hmiss hroute
  refine ⟨heq, ?_⟩
  intro f hg hv hb hfuel
  rw [heq]
  cases hf : f key with
  | mk b e =>
    cases e with
    | some e1 =>
      refine ⟨{ value := { b := [] }, err := some e1 }, g,
        [.cacheGet key, .loaderDo key, .pickPeer key, .peerGet g.name key] ++ [.getter key],
        ?_, ?_, rfl, ?_, ?_⟩
      · simp [Group.getLocally, hg, hf, Run.after]
      · simp [List.count_cons]
      · intro h
        cases h
      · intro _
        exact ⟨rfl, rfl⟩
    | none =>
      obtain ⟨c1, hc1⟩ := cache.add_terminates fuel hv key { b := cloneBytes b } hb hfuel
      refine ⟨{ value := { b := cloneBytes b }, err := none }, { g with mainCache := c1 },
        [.cacheGet key, .loaderDo key, .pickPeer key, .peerGet g.name key]
          ++ [.getter key, .cacheAdd key], ?_, ?_, rfl, ?_, ?_⟩
      · simp [Group.getLocally, hg, hf, Group.populateCache, hc1, Run.after]
      · simp [List.count_cons]
      · intro _
        exact ⟨rfl, hc1⟩
      · intro h
        exact absurd rfl h

/-- Witness of C12: the peer is down and the getter answers with three
bytes; they are returned and the shard holds them afterwards. -/
theorem peer_failure_falls_back_witness :
    (Group.Get 1 (peerGroup downPeer demoGetter) "k").returned
        = some ({ value := { b := [1, 2, 3] }, err := none },
            [.cacheGet "k", .loaderDo "k", .pickPeer "k", .peerGet "demo" "k", .getter "k",
              .cacheAdd "k"]) ∧
      (Group.Get 1 (peerGroup downPeer demoGetter) "k").cached "k"
        = some (some { b := [1, 2, 3] }) ∧
      ∃ r g1 evs, Group.Get 1 (peerGroup downPeer demoGetter) "k" = .returns (r, g1, evs) ∧
        evs.count (.getter "k") = 1 ∧ r.err = none ∧
        (none = (none : Option String) →
          r.value = { b := [1, 2, 3] } ∧
            cache.add 1 (peerGroup downPeer demoGetter).mainCache "k" r.value
              = some g1.mainCache) ∧
        (none ≠ (none : Option String) →
          r.value = { b := [] } ∧ g1 = peerGroup downPeer demoGetter) :=
  ⟨congrArg Run.returned
      (peer_failure_falls_back 1 (peerGroup downPeer demoGetter) "k"
        (fun _ => (some downPeer, true)) downPeer [] "server returned 500" (by decide) rfl rfl
        rfl rfl).1,
    by decide,
    (peer_failure_falls_back 1 (peerGroup downPeer demoGetter) "k"
      (fun _ => (some downPeer, true)) downPeer [] "server returned 500" (by decide) rfl rfl
      rfl rfl).2 (fun _ => ([1, 2, 3], none)) rfl trivial (by decide) (by decide)⟩

/-- C12 as stated fails on a group whose budget is negative: with
`cacheBytes = -1`, a peer that is down and a getter that succeeds, the
eviction loop of the `Add` that stores the value never exits, so `Get` returns
for no amount of fuel and the getter's value is not returned. It also fails on
a getter of another type than `GetterFunc`, where `Get` panics and the getter
is not invoked. -/
theorem peer_failure_no_return :
    ¬ (∃ fuel, ((Group.Get fuel starvedGroup "k").returned).isSome = true) ∧
      (Group.Get 1 (peerGroup downPeer structGetter) "k").panicked = true ∧
      (Group.Get 1 (peerGroup downPeer structGetter) "k").returned = none := by
  refine ⟨?_, by decide, by decide⟩
  rintro ⟨fuel, h⟩
  rw [@Group.Get_diverges fuel starvedGroup "k" [.pickPeer "k", .peerGet "demo" "k"]
    (fun _ => ([1, 2, 3], none)) [1, 2, 3] (by decide) rfl rfl rfl rfl trivial (by decide)] at h
  cases h

/-- C14: for every group in every state `Group.Get("")` returns the error
`key is required` with the empty `ByteView`; it makes no call to the shard,
the call coalescer, the peer picker or the getter, and the group is left as
it was. -/
theorem empty_key_rejected (fuel : Nat) (g : Group) :
    Group.Get fuel g ""
      = .returns ({ value := { b := [] }, err := some "key is required" }, g, []) := by
  unfold Group.Get
  rw [if_pos rfl]

/-- C15: for a non-empty key that the local shard holds with value `v`,
`Group.Get` returns `v` with a nil error; its only call is the shard lookup
(no coalescer, no picker, no getter); in the group afterwards only the shard
differs, its entries are those of before in another order, and every lookup
answers as before. -/
theorem local_hit (fuel : Nat) (g : Group) (key : String) (v : ByteView) (hk : key ≠ "")
    (hv : g.mainCache.Valid) (hhit : (cache.get g.mainCache key).2 = some v) :
    (Group.Get fuel g key).returned = some ({ value := v, err := none }, [.cacheGet key]) ∧
      (Group.Get fuel g key).group
        = some { g with mainCache := (cache.get g.mainCache key).1 } ∧
      (cache.entries (cache.get g.mainCache key).1).Perm (cache.entries g.mainCache) ∧
      ∀ k, (cache.get (cache.get g.mainCache key).1 k).2 = (cache.get g.mainCache k).2 := by
  have hrun : Group.Get fuel g key
      = .returns ({ value := v, err := none },
          { g with mainCache := (cache.get g.mainCache key).1 }, [.cacheGet key]) := by
    unfold Group.Get
    rw [if_neg hk]
    simp only [hhit]
  rw [hrun]
  exact ⟨rfl, rfl, cache.get_entries_perm hv key, cache.get_get hv key⟩

/-- Witness of C15: the group left by a first `Get` of `k` answers the second
one from the shard. -/
theorem local_hit_witness :
    (Group.Get 1 (demoGroup 4) "k").group = some warmGroup ∧
      (Group.Get 0 warmGroup "k").returned
        = some ({ value := { b := [1, 2, 3] }, err := none }, [.cacheGet "k"]) ∧
      cache.entries (cache.get warmGroup.mainCache "k").1 = [("k", { b := [1, 2, 3] })] :=
  ⟨rfl,
    (local_hit 0 warmGroup "k" { b := [1, 2, 3] } (by decide)
      (@Group.Valid_Get 1 (demoGroup 4) warmGroup trivial "k" rfl) rfl).1,
    rfl⟩

/-- C18, the code at a getter of another type than `GetterFunc`: `NewGroup`
accepts the getter, and a `Get` that reaches the local source panics in the
type assertion `g.getter.(GetterFunc)` instead of calling the getter's `Get`
method. -/
theorem getter_type_assertion_panics :
    (NewGroup "demo" 0 (some structGetter)).value?.map
        (fun g => ((Group.Get 1 g "k").panicked, (Group.Get 1 g "k").returned))
      = some (true, none) := by
  decide

end geecache

/-! ## The HTTP pool -/

namespace geecache

theorem HTTPPool.Set_getters (p : HTTPPool) (peers : List String) :
    (p.Set peers).httpGetters
      = GoMap.setAll [] (peers.map (fun peer => (peer, { baseURL := peer ++ p.basePath }))) := by
  unfold HTTPPool.Set GoMap.setAll
  rw [List.foldl_map]

/-- After `Set(peers...)` the client registered for a peer of the list is the
`httpGetter` with the base URL `peer + basePath`. -/
theorem HTTPPool.Set_getter_of_mem (p : HTTPPool) {peers : List String} {peer : String}
    (h : peer ∈ peers) :
    GoMap.get (p.Set peers).httpGetters peer = some { baseURL := peer ++ p.basePath } := by
  rw [HTTPPool.Set_getters]
  have hm : peer ∈ (peers.map
      (fun peer => (peer, ({ baseURL := peer ++ p.basePath } : httpGetter)))).map Prod.fst := by
    rw [List.map_map]
    exact List.mem_map.2 ⟨peer, h, rfl⟩
  obtain ⟨b, hb, hg⟩ := GoMap.get_setAll_mem _ ([] : GoMap String httpGetter) hm
  obtain ⟨q, -, hq⟩ := List.mem_map.1 hb
  cases hq
  exact hg

/-- After `Set(peers...)` the owner of a key is one of the peers, or `""`
when the ring has no point. -/
theorem HTTPPool.Set_owner (p : HTTPPool) (peers : List String) (key : String) :
    (p.Set peers).owner key = "" ∨ (p.Set peers).owner key ∈ peers := by
  have h := consistenthash.Get_Add_cases (consistenthash.RingInv_New defaultReplicas none)
    peers key
  rw [@consistenthash.Get_of_nil (consistenthash.New defaultReplicas none) rfl key] at h
  exact h

theorem HTTPPool.PickPeer_Set (p : HTTPPool) (peers : List String) (key : String) :
    (p.Set peers).PickPeer key
      = .returns (if (p.Set peers).owner key = p.self ∨ (p.Set peers).owner key = "" then
            (none, false)
          else (some { baseURL := (p.Set peers).owner key ++ p.basePath }, true)) := by
  have ho := HTTPPool.Set_owner p peers key
  have hunf : (p.Set peers).PickPeer key
      = if (p.Set peers).owner key = p.self ∨ (p.Set peers).owner key = "" then
          .returns (none, false)
        else .returns (GoMap.get (p.Set peers).httpGetters ((p.Set peers).owner key), true) := rfl
  rw [hunf]
  by_cases hc : (p.Set peers).owner key = p.self ∨ (p.Set peers).owner key = ""
  · rw [if_pos hc, if_pos hc]
  · rw [if_neg hc, if_neg hc]
    have hmem : (p.Set peers).owner key ∈ peers := by
      rcases ho with h | h
      · exact absurd (Or.inr h) hc
      · exact h
    rw [HTTPPool.Set_getter_of_mem p hmem]

end geecache

/-! ## `HTTPPool.PickPeer` -/

namespace geecache

/-- C16 (amended): on a pool on which `Set(peers...)` has been called,
`PickPeer` returns without failing; it reports `ok = false` with a nil client
when the ring's owner of the key is the pool's own address or the empty
string, which is the case for every key when the peer list is empty; in every
other case the owner is one of `peers` and `PickPeer` reports `ok = true`
with the non-nil client that `Set` registered for the owner's address (base
URL `owner + basePath`). -/
theorem pick_peer_after_set (p : HTTPPool) (peers : List String) (key : String) :
    (p.Set peers).PickPeer key
        = .returns (if (p.Set peers).owner key = p.self ∨ (p.Set peers).owner key = "" then
              (none, false)
            else (some { baseURL := (p.Set peers).owner key ++ p.basePath }, true)) ∧
      ((p.Set peers).owner key = "" ∨
        ((p.Set peers).owner key ∈ peers ∧
          GoMap.get (p.Set peers).httpGetters ((p.Set peers).owner key)
            = some { baseURL := (p.Set peers).owner key ++ p.basePath })) ∧
      (p.Set []).owner key = "" ∧ (p.Set []).PickPeer key = .returns (none, false) := by
  refine ⟨HTTPPool.PickPeer_Set p peers key, ?_, ?_⟩
  · rcases HTTPPool.Set_owner p peers key with h | h
    · exact Or.inl h
    · exact Or.inr ⟨h, HTTPPool.Set_getter_of_mem p h⟩
  · have h0 : (p.Set []).owner key = "" := by
      rcases HTTPPool.Set_owner p [] key with h | h
      · exact h
      · cases h
    refine ⟨h0, ?_⟩
    rw [HTTPPool.PickPeer_Set, if_pos (Or.inr h0)]

set_option maxRecDepth 1000000 in
/-- C16 as stated fails twice. On a pool on which `Set` was never called
`PickPeer` does not return (the ring is nil and `p.peers.Get` panics). And on
the pool `a` with the single peer `""` the owner of the key `k` is that peer,
not the pool itself, and `Set` registered a client for it, yet `PickPeer`
reports `ok = false` with a nil client. -/
theorem pick_peer_fails :
    ((NewHTTPPool "a").PickPeer "k").value? = none ∧
      (((NewHTTPPool "a").Set [""]).PickPeer "k").value? = some (none, false) ∧
      ((NewHTTPPool "a").Set [""]).owner "k" = "" ∧
      GoMap.get ((NewHTTPPool "a").Set [""]).httpGetters ""
        = some { baseURL := "/_geecache/" } := by
  decide

set_option maxRecDepth 1000000 in
/-- An instance of C16 (amended) with the default hash: on the pool `a` with
the peers `a`, `b`, `c` the key `k` has an owner other than `a`, and
`PickPeer` hands out the client registered for it. -/
theorem pick_peer_after_set_witness :
    ((NewHTTPPool "a").Set ["a", "b", "c"]).PickPeer "k"
      = .returns (some { baseURL :=
          ((NewHTTPPool "a").Set ["a", "b", "c"]).owner "k" ++ "/_geecache/" }, true) :=
  (pick_peer_after_set (NewHTTPPool "a") ["a", "b", "c"] "k").1.trans
    (congrArg Outcome.returns (if_neg (by decide)))

end geecache

/-! ## Adding nodes to the ring; termination of `Add` -/

namespace consistenthash

/-- C19 (amended): on every ring built by `New` and any sequence of `Add`
calls (any hash function, any replica count, shared points included), for
every list `ns` of node identifiers and every key, `Get` after `Add(ns...)`
is the node `Get` returned before or one of the identifiers in `ns`; so a
key whose node after the `Add` is not in `ns` has kept its node. When no
identifier in `ns` owns a point of the ring before the `Add`, a key that
changes its node does not move to a node that owned a point before. -/
theorem add_moves_keys_to_new_nodes (replicas : Int) (fn : Option Hash)
    (adds : List (List String)) (ns : List String) (key : String) :
    (Get (Add (ring replicas fn adds) ns) key = Get (ring replicas fn adds) key ∨
        Get (Add (ring replicas fn adds) ns) key ∈ ns) ∧
      (Get (Add (ring replicas fn adds) ns) key ∉ ns →
        Get (ring replicas fn adds) key = Get (Add (ring replicas fn adds) ns) key) ∧
      ((∀ n ∈ ns, n ∉ owners (ring replicas fn adds)) →
        Get (Add (ring replicas fn adds) ns) key ≠ Get (ring replicas fn adds) key →
        Get (Add (ring replicas fn adds) ns) key ∉ owners (ring replicas fn adds)) := by
  have h := Get_Add_cases (RingInv_ring replicas fn adds) ns key
  refine ⟨h, fun hn => ?_, fun hns hne => ?_⟩
  · rcases h with h | h
    · exact h.symm
    · exact absurd h hn
  · rcases h with h | h
    · exact absurd h hne
    · exact hns _ h

/-- Witness of C19: the key `a0` sits on the point of node `a`; adding the
node `b` leaves it with `a`, which is not among the added nodes. The key
`k` moves to the added node `b`, which owned no point before. -/
theorem add_moves_keys_to_new_nodes_witness :
    Get (Add (ring 1 (some smallHash) [["a"]]) ["b"]) "a0" ∉ ["b"] ∧
      Get (ring 1 (some smallHash) [["a"]]) "a0"
        = Get (Add (ring 1 (some smallHash) [["a"]]) ["b"]) "a0" ∧
      Get (Add (ring 1 (some smallHash) [["a"]]) ["b"]) "k"
        ≠ Get (ring 1 (some smallHash) [["a"]]) "k" ∧
      Get (Add (ring 1 (some smallHash) [["a"]]) ["b"]) "k"
        ∉ owners (ring 1 (some smallHash) [["a"]]) :=
  ⟨by decide,
    (add_moves_keys_to_new_nodes 1 (some smallHash) [["a"]] ["b"] "a0").2.1 (by decide),
    by decide,
    (add_moves_keys_to_new_nodes 1 (some smallHash) [["a"]] ["b"] "k").2.2 (by decide)
      (by decide)⟩

/-- C19 as stated fails when `ns` names a node that is on the ring already
and shares a point with another node. With two replicas and the hash
`sharedHash`, after `Add("a", "b")` both nodes own points, the key `k` is
served by `b` and the key `j` by `a`; `Add("a")` takes the shared point 10
back for `a`, and `k` moves from `b` to `a`, both present before. -/
theorem add_moves_key_between_present_nodes :
    "a" ∈ owners (ring 2 (some sharedHash) [["a", "b"]]) ∧
      "b" ∈ owners (ring 2 (some sharedHash) [["a", "b"]]) ∧
      Get (ring 2 (some sharedHash) [["a", "b"]]) "j" = "a" ∧
      Get (ring 2 (some sharedHash) [["a", "b"]]) "k" = "b" ∧
      Get (Add (ring 2 (some sharedHash) [["a", "b"]]) ["a"]) "k" = "a" := by
  decide

end consistenthash

namespace lru

variable {V σ : Type}

end lru
